import Mathlib

/-! Segmented bitset: an embedding of `src/src/bitset_segmented.cpp`.

`std::size_t` and `uint64_t` are 64-bit unsigned integers.  They are embedded as
natural numbers; every arithmetic operation of the source that can leave the
range is followed by an explicit reduction modulo `2 ^ 64` (`wrap`).

* `bitset_array` is the C++ struct of the same name (one segment).
* `bitset_segmented` is `bitset_segmented::impl`: the ordered directory
  (`std::map`, here a key-ordered association list) and the two cached extrema.
  The directory never stores a null pointer (each `segments[seg]` access is
  directly followed by `make_unique`), so the values are segments themselves.
* Reading `words[i]` is `List.getD i 0`; every access of the source has
  `i < WORD_COUNT`.

The definitions come first; the theorems follow.
-/

namespace bsa

/-! ## Constants -/

/-- The constant `BITSET_SEGMENT_SIZE` of the source. -/
def BITSET_SEGMENT_SIZE : Nat := 16384

/-- The constant `WORD_BITS` of the source. -/
def WORD_BITS : Nat := 64

/-- The constant `WORD_COUNT = BITSET_SEGMENT_SIZE / WORD_BITS` of the source. -/
def WORD_COUNT : Nat := BITSET_SEGMENT_SIZE / WORD_BITS

/-- The value `std::numeric_limits<std::size_t>::max()`. -/
def SIZE_MAX : Nat := 18446744073709551615

/-- Reduction of an unsigned 64-bit result: arithmetic on `std::size_t` wraps. -/
def wrap (n : Nat) : Nat := n % 18446744073709551616

/-! ## Compiler builtins -/

/-- Scan the bits `k, k+1, ...` of `x` upwards, at most `fuel` of them, counting the
clear bits met before the first set one. -/
def ctzll_from : Nat → Nat → Nat → Nat
  | 0, _, _ => 0
  | fuel + 1, k, x => if x.testBit k then 0 else 1 + ctzll_from fuel (k + 1) x

/-- The builtin `__builtin_ctzll`: number of trailing zero bits of a nonzero 64-bit word. -/
def ctzll (x : Nat) : Nat := ctzll_from 64 0 x

/-- Scan the bits `n-1, n-2, ...` of `x` downwards, counting the clear bits met before
the first set one. -/
def clzll_from : Nat → Nat → Nat
  | 0, _ => 0
  | n + 1, x => if x.testBit n then 0 else 1 + clzll_from n x

/-- The builtin `__builtin_clzll`: number of leading zero bits of a nonzero 64-bit word. -/
def clzll (x : Nat) : Nat := clzll_from 64 x

/-! ## One segment: `struct bitset_array` -/

/-- The struct `bitset_array`: `words[WORD_COUNT]`, `count`, `local_min`, `local_max`. -/
structure bitset_array where
  words : List Nat
  count : Nat
  local_min : Nat
  local_max : Nat
deriving DecidableEq

namespace bitset_array

/-- A value-initialised segment, as made by `std::make_unique<bitset_array>()`. -/
def fresh : bitset_array :=
  { words := List.replicate WORD_COUNT 0, count := 0, local_min := SIZE_MAX, local_max := 0 }

/-- The method `bitset_array::test`. -/
def test (a : bitset_array) (bit : Nat) : Bool :=
  let word_idx := bit / WORD_BITS
  let mask := 1 <<< (bit % WORD_BITS)
  (a.words.getD word_idx 0 &&& mask) != 0

/-- The method `bitset_array::set`. -/
def set (a : bitset_array) (bit : Nat) : bitset_array :=
  let word_idx := bit / WORD_BITS
  let mask := 1 <<< (bit % WORD_BITS)
  let w := a.words.getD word_idx 0
  if (w &&& mask) != 0 then a
  else
    { words := a.words.set word_idx (w ||| mask)
      count := wrap (a.count + 1)
      local_min := min a.local_min bit
      local_max := max a.local_max bit }

/-- The loop of `bitset_array::update_local_min`: `n` iterations are left and the loop
variable is `wi`. -/
def update_local_min_from (a : bitset_array) : Nat → Nat → bitset_array
  | 0, _ => a
  | n + 1, wi =>
    if a.words.getD wi 0 != 0 then
      { a with local_min := wrap (wi * WORD_BITS + ctzll (a.words.getD wi 0)) }
    else update_local_min_from a n (wi + 1)

/-- The method `bitset_array::update_local_min`. -/
def update_local_min (a : bitset_array) : bitset_array :=
  update_local_min_from a WORD_COUNT 0

/-- The loop of `bitset_array::update_local_max`, `for (wi = WORD_COUNT; wi-- > 0;)`:
the argument is the value of `wi` before the test `wi-- > 0`. -/
def update_local_max_from (a : bitset_array) : Nat → bitset_array
  | 0 => a
  | wi + 1 =>
    if a.words.getD wi 0 != 0 then
      { a with local_max := wrap (wi * WORD_BITS + (WORD_BITS - 1 - clzll (a.words.getD wi 0))) }
    else update_local_max_from a wi

/-- The method `bitset_array::update_local_max`. -/
def update_local_max (a : bitset_array) : bitset_array :=
  update_local_max_from a WORD_COUNT

/-- The method `bitset_array::unset`. -/
def unset (a : bitset_array) (bit : Nat) : bitset_array :=
  let word_idx := bit / WORD_BITS
  let mask := 1 <<< (bit % WORD_BITS)
  let w := a.words.getD word_idx 0
  if (w &&& mask) == 0 then a
  else
    let a1 : bitset_array :=
      { a with words := a.words.set word_idx (w &&& (SIZE_MAX ^^^ mask))
               count := wrap (a.count + SIZE_MAX) }
    if a1.count == 0 then
      { a1 with local_min := SIZE_MAX, local_max := 0 }
    else
      let a2 := if bit == a1.local_min then a1.update_local_min else a1
      if bit == a2.local_max then a2.update_local_max else a2

end bitset_array

/-! ## The directory: `std::map<std::size_t, std::unique_ptr<bitset_array>>` -/

/-- The lookup `segments.find(seg)` (`none` stands for `segments.end()`). -/
def seg_find : List (Nat × bitset_array) → Nat → Option bitset_array
  | [], _ => none
  | (k, a) :: rest, seg => if k = seg then some a else seg_find rest seg

/-- Storing a segment under key `seg`, keeping the entries ordered by key: the effect of
writing through the reference `segments[seg]`. -/
def seg_store : List (Nat × bitset_array) → Nat → bitset_array → List (Nat × bitset_array)
  | [], seg, v => [(seg, v)]
  | (k, a) :: rest, seg, v =>
    if seg < k then (seg, v) :: (k, a) :: rest
    else if k = seg then (seg, v) :: rest
    else (k, a) :: seg_store rest seg v

/-- The struct `bitset_segmented::impl`. -/
structure bitset_segmented where
  segments : List (Nat × bitset_array)
  head_index : Nat
  tail_index : Nat
deriving DecidableEq

namespace bitset_segmented

/-- The constructor: `impl{}`. -/
def init : bitset_segmented :=
  { segments := [], head_index := SIZE_MAX, tail_index := 0 }

/-- One iteration of the loop of `impl::update_head_from`. -/
def head_step (new_head : Nat) (p : Nat × bitset_array) : Nat :=
  if p.2.count != 0 then
    let candidate := wrap (p.1 * BITSET_SEGMENT_SIZE + p.2.local_min)
    if candidate < new_head then candidate else new_head
  else new_head

/-- One iteration of the loop of `impl::update_tail_from`. -/
def tail_step (new_tail : Nat) (p : Nat × bitset_array) : Nat :=
  if p.2.count != 0 then
    let candidate := wrap (p.1 * BITSET_SEGMENT_SIZE + p.2.local_max + 1)
    if candidate > new_tail then candidate else new_tail
  else new_tail

/-- The method `impl::update_head_from`. -/
def update_head_from (s : bitset_segmented) : bitset_segmented :=
  { s with head_index := s.segments.foldl head_step SIZE_MAX }

/-- The method `impl::update_tail_from`. -/
def update_tail_from (s : bitset_segmented) : bitset_segmented :=
  { s with tail_index := s.segments.foldl tail_step 0 }

/-- The method `bitset_segmented::set`. -/
def set (s : bitset_segmented) (index : Nat) : bitset_segmented :=
  let seg := index / BITSET_SEGMENT_SIZE
  let bit := index % BITSET_SEGMENT_SIZE
  let a := (seg_find s.segments seg).getD bitset_array.fresh
  let prev_count := a.count
  let s1 : bitset_segmented := { s with segments := seg_store s.segments seg (a.set bit) }
  if prev_count == 0 then
    let s2 := if s1.head_index > index then s1.update_head_from else s1
    if s2.tail_index < wrap (index + 1) then s2.update_tail_from else s2
  else
    { s1 with head_index := min s1.head_index index
              tail_index := max s1.tail_index (wrap (index + 1)) }

/-- The method `bitset_segmented::unset`: the new state and the returned flag. -/
def unset (s : bitset_segmented) (index : Nat) : bitset_segmented × Bool :=
  let seg := index / BITSET_SEGMENT_SIZE
  let bit := index % BITSET_SEGMENT_SIZE
  match seg_find s.segments seg with
  | none => (s, false)
  | some a =>
    if !a.test bit then (s, false)
    else
      let s1 : bitset_segmented := { s with segments := seg_store s.segments seg (a.unset bit) }
      let s2 := if index == s.head_index then s1.update_head_from else s1
      let s3 := if wrap (index + 1) == s2.tail_index then s2.update_tail_from else s2
      (s3, true)

/-- The method `bitset_segmented::get`. -/
def get (s : bitset_segmented) (index : Nat) : Bool :=
  let seg := index / BITSET_SEGMENT_SIZE
  let bit := index % BITSET_SEGMENT_SIZE
  match seg_find s.segments seg with
  | none => false
  | some a => a.test bit

/-- The method `bitset_segmented::empty`. -/
def empty (s : bitset_segmented) : Bool :=
  s.head_index == SIZE_MAX

/-- One iteration of the loop of `reserve_for_max_index`. -/
def reserve_step (m : List (Nat × bitset_array)) (i : Nat) : List (Nat × bitset_array) :=
  match seg_find m i with
  | some _ => m
  | none => seg_store m i bitset_array.fresh

/-- The method `bitset_segmented::reserve_for_max_index`. -/
def reserve_for_max_index (s : bitset_segmented) (max_index : Nat) : bitset_segmented :=
  let needed := wrap (max_index + BITSET_SEGMENT_SIZE - 1) / BITSET_SEGMENT_SIZE
  { s with segments := (List.range needed).foldl reserve_step s.segments }

/-- The method `bitset_segmented::head`. -/
def head (s : bitset_segmented) : Nat :=
  if s.empty then 0 else s.head_index

/-- The method `bitset_segmented::tail`. -/
def tail (s : bitset_segmented) : Nat :=
  if s.empty then 0 else s.tail_index

end bitset_segmented

/-! ## Call sequences -/

/-- A mutating call of the public interface. -/
inductive Op where
  | set (index : Nat)
  | unset (index : Nat)
  | reserve (max_index : Nat)
deriving DecidableEq

/-- The argument of a call. -/
def Op.arg : Op → Nat
  | .set i => i
  | .unset i => i
  | .reserve m => m

/-- The state after one call. -/
def apply_op (s : bitset_segmented) : Op → bitset_segmented
  | .set i => s.set i
  | .unset i => (s.unset i).1
  | .reserve m => s.reserve_for_max_index m

/-- The state after a sequence of calls, first call first. -/
def run (s : bitset_segmented) (ops : List Op) : bitset_segmented :=
  ops.foldl apply_op s

namespace bitset_array

/-- A segment holds `WORD_COUNT` words, each a 64-bit value. -/
def wf (a : bitset_array) : Prop :=
  a.words.length = WORD_COUNT ∧ ∀ w ∈ a.words, w < 2 ^ 64

/-- The number of offsets of the segment whose bit is set. -/
def popcount (a : bitset_array) : Nat :=
  ((Finset.range BITSET_SEGMENT_SIZE).filter (fun b => a.test b = true)).card

/-- The segment in the middle of `bitset_array::unset`, right after `w &= ~mask; --count;`. -/
def cleared (a : bitset_array) (bit : Nat) : bitset_array :=
  { a with words := a.words.set (bit / 64) (a.words.getD (bit / 64) 0 &&& (SIZE_MAX ^^^ (1 <<< (bit % 64))))
           count := wrap (a.count + SIZE_MAX) }

/-- The segment invariant: `count` is the number of set bits, the extrema hold their
sentinels when the segment has no bit, and are the smallest and largest set offsets
otherwise. -/
def inv (a : bitset_array) : Prop :=
  a.wf ∧ a.count = a.popcount ∧
  (a.count = 0 → a.local_min = SIZE_MAX ∧ a.local_max = 0) ∧
  (a.count ≠ 0 → a.test a.local_min = true ∧ a.test a.local_max = true ∧
    ∀ b, a.test b = true → a.local_min ≤ b ∧ b ≤ a.local_max)

end bitset_array

/-! ## Invariants of the directory and of the cached extrema -/

/-- The keys of the directory are strictly increasing (the order of `std::map`). -/
def keys_sorted (m : List (Nat × bitset_array)) : Prop :=
  (m.map Prod.fst).Pairwise (fun x y => x < y)

/-- Every segment of the directory has `WORD_COUNT` 64-bit words. -/
def dir_wf (m : List (Nat × bitset_array)) : Prop :=
  ∀ k a, seg_find m k = some a → a.wf

/-- The directory invariant: ordered keys, each the segment id of a 64-bit index, and the
segment invariant for every segment. -/
def dir_ok (m : List (Nat × bitset_array)) : Prop :=
  keys_sorted m ∧ ∀ k a, seg_find m k = some a → k < 1125899906842624 ∧ a.inv

/-- The cached `head_index` is the smallest set index, or the sentinel `SIZE_MAX` when no
index is set. -/
def head_ok (s : bitset_segmented) : Prop :=
  (∀ i, s.get i = true → s.head_index ≤ i) ∧
  (s.head_index = SIZE_MAX ∨ s.get s.head_index = true)

/-- The cached `tail_index` is one past the largest set index, or `0` when no index is set;
the index `SIZE_MAX` itself is not set. -/
def tail_ok (s : bitset_segmented) : Prop :=
  s.get SIZE_MAX = false ∧ (∀ i, s.get i = true → i < s.tail_index) ∧
  (s.tail_index = 0 ∨ s.get (s.tail_index - 1) = true)

/-- Every argument of the calls is a value of the 64-bit index type. -/
def valid_ops (ops : List Op) : Prop := ∀ op ∈ ops, op.arg < 18446744073709551616

/-- Every argument of the calls is below the largest value of the index type. -/
def below_max (ops : List Op) : Prop := ∀ op ∈ ops, op.arg < SIZE_MAX

/-- Membership of an index as read from a directory: the body of `bitset_segmented::get`. -/
def dir_get (m : List (Nat × bitset_array)) (index : Nat) : Bool :=
  match seg_find m (index / BITSET_SEGMENT_SIZE) with
  | none => false
  | some a => a.test (index % BITSET_SEGMENT_SIZE)

/-! ## The reference reading of membership -/

/-- The last call of the sequence that is `set(i)` or `unset(i)`, if there is one. -/
def last_call_on (ops : List Op) (i : Nat) : Option Op :=
  ops.reverse.find? (fun op => op == Op.set i || op == Op.unset i)

/-- The index `i` was set and not subsequently unset: the last `set(i)`/`unset(i)` call of the
sequence is a `set`. -/
def set_not_unset (ops : List Op) (i : Nat) : Bool :=
  last_call_on ops i == some (Op.set i)

/-! ## Calls with their returned values -/

/-- A call of the public interface. -/
inductive Call where
  | set (index : Nat)
  | unset (index : Nat)
  | get (index : Nat)
  | head
  | tail
  | empty
  | reserve (max_index : Nat)
deriving DecidableEq

/-- The value a call returns: nothing (`void`), a `bool` or an index. -/
inductive Ret where
  | void
  | flag (b : Bool)
  | index (n : Nat)
deriving DecidableEq

/-- The state after a call, and the value the call returns. -/
def call (s : bitset_segmented) : Call → bitset_segmented × Ret
  | .set i => (s.set i, Ret.void)
  | .unset i => ((s.unset i).1, Ret.flag (s.unset i).2)
  | .get i => (s, Ret.flag (s.get i))
  | .head => (s, Ret.index s.head)
  | .tail => (s, Ret.index s.tail)
  | .empty => (s, Ret.flag s.empty)
  | .reserve m => (s.reserve_for_max_index m, Ret.void)

/-- Whether a call is a `reserve_for_max_index`. -/
def is_reserve : Call → Bool
  | .reserve _ => true
  | _ => false

/-- The values returned, in order, by the calls of a sequence other than
`reserve_for_max_index`. -/
def returns (s : bitset_segmented) : List Call → List Ret
  | [] => []
  | c :: cs =>
    if is_reserve c then returns (call s c).1 cs
    else (call s c).2 :: returns (call s c).1 cs

/-- The directory `n` is the directory `m` with possibly more, empty, segments: both are
ordered, they agree on every segment of `m`, and a segment that only `n` has is
value-initialised. -/
def dir_more (m n : List (Nat × bitset_array)) : Prop :=
  keys_sorted m ∧ keys_sorted n ∧
  ∀ k, seg_find n k = seg_find m k ∨
    (seg_find m k = none ∧ seg_find n k = some bitset_array.fresh)

/-- The state `t` is the state `s` with possibly more, empty, segments reserved: the same
cached extrema, and directories related by `dir_more`. -/
def reserved_more (s t : bitset_segmented) : Prop :=
  dir_more s.segments t.segments ∧
  s.head_index = t.head_index ∧ s.tail_index = t.tail_index

/-! ## Definitions for the claims on rescans, segments and the directory -/

/-- The calls of Scenario A of the spec: insert 10, 50000, 3, 20000, 10. -/
def scenario_A : List Op :=
  [Op.set 10, Op.set 50000, Op.set 3, Op.set 20000, Op.set 10]

/-- Following the spec's words, `set` with the O(1) update in every case: the same lookup,
lazy creation and `bitset_array::set` as `bitset_segmented::set`, then always
`head_index = min(head_index, index)` and `tail_index = max(tail_index, index + 1)`. -/
def set_minmax (s : bitset_segmented) (index : Nat) : bitset_segmented :=
  let seg := index / BITSET_SEGMENT_SIZE
  let bit := index % BITSET_SEGMENT_SIZE
  let a := (seg_find s.segments seg).getD bitset_array.fresh
  { segments := seg_store s.segments seg (a.set bit)
    head_index := min s.head_index index
    tail_index := max s.tail_index (wrap (index + 1)) }

/-- The segments of the directory with `count > 0`. -/
def live_segments (s : bitset_segmented) : List (Nat × bitset_array) :=
  s.segments.filter (fun p => p.2.count != 0)

/-- Following the spec's words, the values `s.id * W + s.local_min` over the segments with
`count > 0`. -/
def min_candidates (s : bitset_segmented) : List Nat :=
  (live_segments s).map (fun p => p.1 * 16384 + p.2.local_min)

/-- Following the spec's words, the values `s.id * W + s.local_max` over the segments with
`count > 0`. -/
def max_candidates (s : bitset_segmented) : List Nat :=
  (live_segments s).map (fun p => p.1 * 16384 + p.2.local_max)

/-- The number `m` is the minimum of the list `l`. -/
def is_min_of (m : Nat) (l : List Nat) : Prop := m ∈ l ∧ ∀ c ∈ l, m ≤ c

/-- The number `m` is the maximum of the list `l`. -/
def is_max_of (m : Nat) (l : List Nat) : Prop := m ∈ l ∧ ∀ c ∈ l, c ≤ m

/-- A mutating call on one segment. -/
inductive SegOp where
  | set (offset : Nat)
  | unset (offset : Nat)
deriving DecidableEq

/-- The offset a segment call is given. -/
def SegOp.offset : SegOp → Nat
  | .set b => b
  | .unset b => b

/-- The segment after one call. -/
def seg_apply (a : bitset_array) : SegOp → bitset_array
  | .set b => a.set b
  | .unset b => a.unset b

/-- The segment after a sequence of calls, first call first. -/
def seg_run (a : bitset_array) (ops : List SegOp) : bitset_array :=
  ops.foldl seg_apply a

/-- Every offset of the calls is in `0..16383`. -/
def valid_offsets (ops : List SegOp) : Prop := ∀ op ∈ ops, op.offset < BITSET_SEGMENT_SIZE

/-- The segment ids present in the directory. -/
def segment_ids (s : bitset_segmented) : List Nat := s.segments.map Prod.fst

/-- A sequence of segment calls in which both removals take the current extremum:
`set(5); set(70); set(16330); set(16383); unset(5); unset(16383)`. -/
def rescan_ops : List SegOp :=
  [SegOp.set 5, SegOp.set 70, SegOp.set 16330, SegOp.set 16383, SegOp.unset 5,
    SegOp.unset 16383]

/-- A segment with the bits 70 and 16330 set whose cached extrema are stale (both 0), as
input for the local rescans. -/
def stale_segment : bitset_array :=
  { words := ((bitset_array.fresh.set 70).set 16330).words
    count := 2
    local_min := 0
    local_max := 0 }

/-! ## Theorems -/

/-! ## Words and bits -/

theorem and_mask_ne_zero (w k : Nat) : ((w &&& (1 <<< k)) != 0) = w.testBit k := by
  rw [Nat.one_shiftLeft]
  cases h : w.testBit k
  · have : w &&& 2 ^ k = 0 := by
      apply Nat.eq_of_testBit_eq
      intro i
      rw [Nat.testBit_and, Nat.testBit_two_pow, Nat.zero_testBit]
      by_cases hki : k = i
      · subst hki; simp [h]
      · simp [hki]
    simp [this]
  · have : (w &&& 2 ^ k).testBit k = true := by
      rw [Nat.testBit_and, Nat.testBit_two_pow_self, h]; rfl
    have hne : w &&& 2 ^ k ≠ 0 := by
      intro h0; rw [h0, Nat.zero_testBit] at this; exact Bool.noConfusion this
    simpa using hne

theorem and_mask_eq_zero (w k : Nat) : ((w &&& (1 <<< k)) == 0) = !w.testBit k := by
  have := and_mask_ne_zero w k
  rw [← this]
  cases h : (w &&& (1 <<< k)) == 0 <;> simp [bne, h]

theorem testBit_or_mask (w k j : Nat) :
    (w ||| (1 <<< k)).testBit j = (w.testBit j || decide (k = j)) := by
  rw [Nat.one_shiftLeft, Nat.testBit_or, Nat.testBit_two_pow]

theorem testBit_and_not_mask (w k j : Nat) (hk : k < 64) :
    (w &&& (SIZE_MAX ^^^ (1 <<< k))).testBit j = (w.testBit j && decide (j < 64) && !decide (k = j)) := by
  have hM : SIZE_MAX = 2 ^ 64 - 1 := by decide
  rw [Nat.one_shiftLeft, Nat.testBit_and, Nat.testBit_xor, Nat.testBit_two_pow, hM,
    Nat.testBit_two_pow_sub_one]
  by_cases h1 : j < 64 <;> by_cases h2 : k = j <;> simp [h1, h2]
  omega

theorem or_mask_lt (w k : Nat) (hw : w < 2 ^ 64) (hk : k < 64) : w ||| (1 <<< k) < 2 ^ 64 := by
  apply Nat.or_lt_two_pow hw
  rw [Nat.one_shiftLeft]
  exact Nat.pow_lt_pow_right (by decide) hk

theorem getD_set (l : List Nat) (i j v : Nat) (hi : i < l.length) :
    (l.set i v).getD j 0 = if i = j then v else l.getD j 0 := by
  simp only [List.getD_eq_getElem?_getD, List.getElem?_set]
  by_cases h : i = j
  · subst h; simp [hi]
  · simp [h]

theorem testBit_lt_of_lt (w j : Nat) (hw : w < 2 ^ 64) (h : w.testBit j = true) : j < 64 := by
  by_contra hj
  have : w < 2 ^ j := Nat.lt_of_lt_of_le hw (Nat.pow_le_pow_right (by decide) (by omega))
  rw [Nat.testBit_lt_two_pow this] at h
  exact Bool.noConfusion h

/-! ## Segments: well-formedness and the bit view -/

namespace bitset_array

theorem test_eq (a : bitset_array) (b : Nat) :
    a.test b = (a.words.getD (b / 64) 0).testBit (b % 64) := by
  unfold test
  exact and_mask_ne_zero _ _

theorem wf_getD {a : bitset_array} (h : a.wf) (i : Nat) : a.words.getD i 0 < 2 ^ 64 := by
  rw [List.getD_eq_getElem?_getD]
  by_cases hi : i < a.words.length
  · rw [List.getElem?_eq_getElem hi]
    exact h.2 _ (List.getElem_mem hi)
  · rw [List.getElem?_eq_none (by omega)]
    exact Nat.two_pow_pos 64

theorem getD_of_le (l : List Nat) (i : Nat) (h : l.length ≤ i) : l.getD i 0 = 0 := by
  rw [List.getD_eq_getElem?_getD, List.getElem?_eq_none h]; rfl

theorem test_lt {a : bitset_array} (h : a.wf) {b : Nat} (hb : a.test b = true) :
    b < BITSET_SEGMENT_SIZE := by
  by_contra hge
  have hlen : a.words.length = 256 := h.1
  have : a.words.getD (b / 64) 0 = 0 := by
    apply getD_of_le
    have : BITSET_SEGMENT_SIZE = 16384 := rfl
    omega
  rw [test_eq, this, Nat.zero_testBit] at hb
  exact Bool.noConfusion hb

theorem wf_fresh : fresh.wf := by
  constructor
  · simp [fresh]
  · intro w hw
    have : w = 0 := by
      simp only [fresh] at hw
      exact List.eq_of_mem_replicate hw
    subst this
    exact Nat.two_pow_pos 64

theorem test_fresh (b : Nat) : fresh.test b = false := by
  rw [test_eq]
  have : fresh.words.getD (b / 64) 0 = 0 := by
    simp only [fresh, List.getD_eq_getElem?_getD, List.getElem?_replicate]
    split <;> rfl
  rw [this, Nat.zero_testBit]

theorem update_local_min_from_words (a : bitset_array) (n wi : Nat) :
    (a.update_local_min_from n wi).words = a.words ∧
    (a.update_local_min_from n wi).count = a.count ∧
    (a.update_local_min_from n wi).local_max = a.local_max := by
  induction n generalizing wi with
  | zero => exact ⟨rfl, rfl, rfl⟩
  | succ n ih =>
    unfold update_local_min_from
    split
    · exact ⟨rfl, rfl, rfl⟩
    · exact ih (wi + 1)

theorem update_local_max_from_words (a : bitset_array) (wi : Nat) :
    (a.update_local_max_from wi).words = a.words ∧
    (a.update_local_max_from wi).count = a.count ∧
    (a.update_local_max_from wi).local_min = a.local_min := by
  induction wi with
  | zero => exact ⟨rfl, rfl, rfl⟩
  | succ n ih =>
    unfold update_local_max_from
    split
    · exact ⟨rfl, rfl, rfl⟩
    · exact ih

theorem test_congr {a c : bitset_array} (h : a.words = c.words) (b : Nat) : a.test b = c.test b := by
  simp only [test, h]

theorem set_words (a : bitset_array) (bit : Nat) :
    (a.set bit).words =
      if a.test bit then a.words
      else a.words.set (bit / 64) (a.words.getD (bit / 64) 0 ||| (1 <<< (bit % 64))) := by
  unfold set test
  simp only [WORD_BITS]
  split <;> rfl

theorem set_count (a : bitset_array) (bit : Nat) :
    (a.set bit).count = if a.test bit then a.count else wrap (a.count + 1) := by
  unfold set test
  simp only [WORD_BITS]
  split <;> rfl

theorem unset_words (a : bitset_array) (bit : Nat) :
    (a.unset bit).words =
      if a.test bit then
        a.words.set (bit / 64) (a.words.getD (bit / 64) 0 &&& (SIZE_MAX ^^^ (1 <<< (bit % 64))))
      else a.words := by
  have ht : a.test bit = !((a.words.getD (bit / 64) 0 &&& (1 <<< (bit % 64))) == 0) := by
    rw [test_eq, and_mask_eq_zero]; simp
  unfold unset
  simp only [WORD_BITS]
  by_cases h0 : ((a.words.getD (bit / 64) 0 &&& (1 <<< (bit % 64))) == 0) = true
  · rw [if_pos h0]
    have : a.test bit = false := by rw [ht, h0]; rfl
    rw [this]; rfl
  · rw [if_neg h0]
    have : a.test bit = true := by
      rw [ht]; cases hc : (a.words.getD (bit / 64) 0 &&& (1 <<< (bit % 64))) == 0
      · rfl
      · exact absurd hc h0
    rw [if_pos this]
    split
    · rfl
    · split <;> split <;>
        simp [update_local_max, update_local_min, update_local_max_from_words,
          update_local_min_from_words]

theorem unset_count (a : bitset_array) (bit : Nat) :
    (a.unset bit).count = if a.test bit then wrap (a.count + SIZE_MAX) else a.count := by
  have ht : a.test bit = !((a.words.getD (bit / 64) 0 &&& (1 <<< (bit % 64))) == 0) := by
    rw [test_eq, and_mask_eq_zero]; simp
  unfold unset
  simp only [WORD_BITS]
  by_cases h0 : ((a.words.getD (bit / 64) 0 &&& (1 <<< (bit % 64))) == 0) = true
  · rw [if_pos h0]
    have : a.test bit = false := by rw [ht, h0]; rfl
    rw [this]; rfl
  · rw [if_neg h0]
    have : a.test bit = true := by
      rw [ht]; cases hc : (a.words.getD (bit / 64) 0 &&& (1 <<< (bit % 64))) == 0
      · rfl
      · exact absurd hc h0
    rw [if_pos this]
    split
    · rfl
    · split <;> split <;>
        simp [update_local_max, update_local_min, update_local_max_from_words,
          update_local_min_from_words]

end bitset_array

namespace bitset_array

theorem word_idx_lt {a : bitset_array} (h : a.wf) {bit : Nat} (hb : bit < BITSET_SEGMENT_SIZE) :
    bit / 64 < a.words.length := by
  have h1 : a.words.length = 256 := h.1
  have h2 : BITSET_SEGMENT_SIZE = 16384 := rfl
  omega

theorem test_set {a : bitset_array} (h : a.wf) {bit : Nat} (hb : bit < BITSET_SEGMENT_SIZE)
    (b : Nat) : (a.set bit).test b = (a.test b || decide (b = bit)) := by
  rw [test_eq, set_words]
  by_cases ht : a.test bit = true
  · rw [if_pos ht, ← test_eq]
    by_cases hbb : b = bit
    · subst hbb; simp [ht]
    · simp [hbb]
  · rw [if_neg ht, getD_set _ _ _ _ (word_idx_lt h hb)]
    by_cases hw : bit / 64 = b / 64
    · rw [if_pos hw, testBit_or_mask, hw, ← test_eq]
      congr 1
      by_cases hbb : b = bit
      · subst hbb; simp
      · have : ¬ bit % 64 = b % 64 := by omega
        simp [hbb, this]
    · rw [if_neg hw, ← test_eq]
      have : ¬ b = bit := by intro hh; subst hh; exact hw rfl
      simp [this]

theorem test_unset {a : bitset_array} (h : a.wf) {bit : Nat} (hb : bit < BITSET_SEGMENT_SIZE)
    (b : Nat) : (a.unset bit).test b = (a.test b && !decide (b = bit)) := by
  rw [test_eq, unset_words]
  by_cases ht : a.test bit = true
  · rw [if_pos ht, getD_set _ _ _ _ (word_idx_lt h hb)]
    by_cases hw : bit / 64 = b / 64
    · rw [if_pos hw, testBit_and_not_mask _ _ _ (Nat.mod_lt _ (by decide)), hw, ← test_eq]
      have h64 : b % 64 < 64 := Nat.mod_lt _ (by decide)
      by_cases hbb : b = bit
      · subst hbb; simp
      · have : ¬ bit % 64 = b % 64 := by omega
        simp [hbb, this, h64]
    · rw [if_neg hw, ← test_eq]
      have : ¬ b = bit := by intro hh; subst hh; exact hw rfl
      simp [this]
  · rw [if_neg ht, ← test_eq]
    by_cases hbb : b = bit
    · subst hbb; simp [ht]
    · simp [hbb]

theorem wf_set {a : bitset_array} (h : a.wf) {bit : Nat} : (a.set bit).wf := by
  unfold wf
  rw [set_words]
  split
  · exact h
  · refine ⟨by rw [List.length_set]; exact h.1, ?_⟩
    intro w hw
    rcases List.mem_or_eq_of_mem_set hw with hm | he
    · exact h.2 w hm
    · rw [he]
      exact or_mask_lt _ _ (wf_getD h _) (Nat.mod_lt _ (by decide))

theorem wf_unset {a : bitset_array} (h : a.wf) {bit : Nat} : (a.unset bit).wf := by
  unfold wf
  rw [unset_words]
  split
  · refine ⟨by rw [List.length_set]; exact h.1, ?_⟩
    intro w hw
    rcases List.mem_or_eq_of_mem_set hw with hm | he
    · exact h.2 w hm
    · rw [he]
      apply Nat.lt_pow_two_of_testBit
      intro i hi
      rw [testBit_and_not_mask _ _ _ (Nat.mod_lt _ (by decide))]
      have : ¬ i < 64 := by omega
      simp [this]
  · exact h

/-! ### Bit scans -/

theorem ctzll_from_spec (x : Nat) : ∀ (fuel k : Nat),
    (∃ j, k ≤ j ∧ j < k + fuel ∧ x.testBit j = true) →
    x.testBit (k + ctzll_from fuel k x) = true ∧ k + ctzll_from fuel k x < k + fuel ∧
      ∀ j, k ≤ j → j < k + ctzll_from fuel k x → x.testBit j = false := by
  intro fuel
  induction fuel with
  | zero => intro k ⟨j, h1, h2, _⟩; omega
  | succ n ih =>
    intro k ⟨j, h1, h2, h3⟩
    unfold ctzll_from
    by_cases hk : x.testBit k = true
    · rw [if_pos hk]
      refine ⟨by simpa using hk, by omega, ?_⟩
      intro j hj1 hj2; omega
    · rw [if_neg hk]
      have hjk : j ≠ k := by intro hh; subst hh; exact hk h3
      obtain ⟨a1, a2, a3⟩ := ih (k + 1) ⟨j, by omega, by omega, h3⟩
      have e : k + (1 + ctzll_from n (k + 1) x) = k + 1 + ctzll_from n (k + 1) x := by omega
      refine ⟨by rw [e]; exact a1, by omega, ?_⟩
      intro i hi1 hi2
      by_cases hik : i = k
      · subst hik; simpa using hk
      · exact a3 i (by omega) (by omega)

theorem ctzll_spec {x : Nat} (h0 : x ≠ 0) (hx : x < 2 ^ 64) :
    x.testBit (ctzll x) = true ∧ ctzll x < 64 ∧ ∀ j, j < ctzll x → x.testBit j = false := by
  obtain ⟨j, hj⟩ := Nat.ne_zero_implies_bit_true h0
  have hj64 := testBit_lt_of_lt x j hx hj
  obtain ⟨a1, a2, a3⟩ := ctzll_from_spec x 64 0 ⟨j, by omega, by omega, hj⟩
  unfold ctzll
  refine ⟨by simpa using a1, by omega, ?_⟩
  intro i hi
  exact a3 i (by omega) (by omega)

theorem clzll_from_spec (x : Nat) : ∀ (n : Nat),
    (∃ j, j < n ∧ x.testBit j = true) →
    clzll_from n x < n ∧ x.testBit (n - 1 - clzll_from n x) = true ∧
      ∀ j, n - 1 - clzll_from n x < j → j < n → x.testBit j = false := by
  intro n
  induction n with
  | zero => intro ⟨j, h1, _⟩; omega
  | succ n ih =>
    intro ⟨j, h1, h3⟩
    unfold clzll_from
    by_cases hk : x.testBit n = true
    · rw [if_pos hk]
      refine ⟨by omega, by simpa using hk, ?_⟩
      intro j hj1 hj2; omega
    · rw [if_neg hk]
      have hjk : j ≠ n := by intro hh; subst hh; exact hk h3
      obtain ⟨a1, a2, a3⟩ := ih ⟨j, by omega, h3⟩
      have e : n + 1 - 1 - (1 + clzll_from n x) = n - 1 - clzll_from n x := by omega
      refine ⟨by omega, by rw [e]; exact a2, ?_⟩
      intro i hi1 hi2
      by_cases hik : i = n
      · subst hik; simpa using hk
      · exact a3 i (by omega) (by omega)

theorem clzll_spec {x : Nat} (h0 : x ≠ 0) (hx : x < 2 ^ 64) :
    x.testBit (63 - clzll x) = true ∧ ∀ j, 63 - clzll x < j → x.testBit j = false := by
  obtain ⟨j, hj⟩ := Nat.ne_zero_implies_bit_true h0
  have hj64 := testBit_lt_of_lt x j hx hj
  obtain ⟨a1, a2, a3⟩ := clzll_from_spec x 64 ⟨j, hj64, hj⟩
  unfold clzll
  refine ⟨a2, ?_⟩
  intro i hi
  by_cases h64 : i < 64
  · exact a3 i hi h64
  · cases hc : x.testBit i
    · rfl
    · exact absurd (testBit_lt_of_lt x i hx hc) h64

end bitset_array

namespace bitset_array

theorem update_local_min_from_spec {a : bitset_array} (h : a.wf) : ∀ (n wi : Nat),
    (∀ j, j < wi → a.words.getD j 0 = 0) →
    (∃ j, wi ≤ j ∧ j < wi + n ∧ a.words.getD j 0 ≠ 0) → wi + n ≤ 256 →
    a.test (a.update_local_min_from n wi).local_min = true ∧
      ∀ b, a.test b = true → (a.update_local_min_from n wi).local_min ≤ b := by
  intro n
  induction n with
  | zero => intro wi _ ⟨j, h1, h2, _⟩; omega
  | succ n ih =>
    intro wi hz ⟨j, h1, h2, h3⟩ hle
    unfold update_local_min_from
    by_cases hw : a.words.getD wi 0 = 0
    · have : (a.words.getD wi 0 != 0) = false := by rw [hw]; rfl
      rw [this]
      simp only [Bool.false_eq_true, if_false]
      have hjw : j ≠ wi := by intro hh; subst hh; exact h3 hw
      apply ih (wi + 1)
      · intro i hi
        by_cases hiw : i = wi
        · subst hiw; exact hw
        · exact hz i (by omega)
      · exact ⟨j, by omega, by omega, h3⟩
      · omega
    · have : (a.words.getD wi 0 != 0) = true := bne_iff_ne.mpr hw
      rw [if_pos this]
      obtain ⟨c1, c2, c3⟩ := ctzll_spec hw (wf_getD h wi)
      have hr : wrap (wi * WORD_BITS + ctzll (a.words.getD wi 0)) =
          wi * 64 + ctzll (a.words.getD wi 0) := by
        unfold wrap WORD_BITS; omega
      simp only [hr]
      constructor
      · rw [test_eq]
        have e1 : (wi * 64 + ctzll (a.words.getD wi 0)) / 64 = wi := by omega
        have e2 : (wi * 64 + ctzll (a.words.getD wi 0)) % 64 = ctzll (a.words.getD wi 0) := by
          omega
        rw [e1, e2]; exact c1
      · intro b hb
        rw [test_eq] at hb
        by_contra hlt
        by_cases hbw : b / 64 < wi
        · rw [hz _ hbw, Nat.zero_testBit] at hb; exact Bool.noConfusion hb
        · have e1 : b / 64 = wi := by omega
          rw [e1, c3 (b % 64) (by omega)] at hb
          exact Bool.noConfusion hb

theorem update_local_max_from_spec {a : bitset_array} (h : a.wf) : ∀ (wi : Nat),
    (∀ j, wi ≤ j → a.words.getD j 0 = 0) →
    (∃ j, j < wi ∧ a.words.getD j 0 ≠ 0) → wi ≤ 256 →
    a.test (a.update_local_max_from wi).local_max = true ∧
      ∀ b, a.test b = true → b ≤ (a.update_local_max_from wi).local_max := by
  intro n
  induction n with
  | zero => intro _ ⟨j, h1, _⟩; omega
  | succ n ih =>
    intro hz ⟨j, h1, h3⟩ hle
    unfold update_local_max_from
    by_cases hw : a.words.getD n 0 = 0
    · have : (a.words.getD n 0 != 0) = false := by rw [hw]; rfl
      rw [this]
      simp only [Bool.false_eq_true, if_false]
      have hjw : j ≠ n := by intro hh; subst hh; exact h3 hw
      apply ih
      · intro i hi
        by_cases hiw : i = n
        · subst hiw; exact hw
        · exact hz i (by omega)
      · exact ⟨j, by omega, h3⟩
      · omega
    · have : (a.words.getD n 0 != 0) = true := bne_iff_ne.mpr hw
      rw [if_pos this]
      obtain ⟨c1, c3⟩ := clzll_spec hw (wf_getD h n)
      have hr : wrap (n * WORD_BITS + (WORD_BITS - 1 - clzll (a.words.getD n 0))) =
          n * 64 + (63 - clzll (a.words.getD n 0)) := by
        unfold wrap WORD_BITS; omega
      simp only [hr]
      constructor
      · rw [test_eq]
        have e1 : (n * 64 + (63 - clzll (a.words.getD n 0))) / 64 = n := by omega
        have e2 : (n * 64 + (63 - clzll (a.words.getD n 0))) % 64 =
            63 - clzll (a.words.getD n 0) := by omega
        rw [e1, e2]; exact c1
      · intro b hb
        rw [test_eq] at hb
        by_contra hlt
        by_cases hbw : n < b / 64
        · rw [hz _ hbw, Nat.zero_testBit] at hb; exact Bool.noConfusion hb
        · have e1 : b / 64 = n := by omega
          rw [e1, c3 (b % 64) (by omega)] at hb
          exact Bool.noConfusion hb

theorem exists_word_of_test {a : bitset_array} (h : a.wf) {b : Nat} (hb : a.test b = true) :
    ∃ j, j < 256 ∧ a.words.getD j 0 ≠ 0 := by
  have hl := test_lt h hb
  have h2 : BITSET_SEGMENT_SIZE = 16384 := rfl
  refine ⟨b / 64, by omega, ?_⟩
  intro h0
  rw [test_eq, h0, Nat.zero_testBit] at hb
  exact Bool.noConfusion hb

theorem update_local_min_spec {a : bitset_array} (h : a.wf) {b : Nat} (hb : a.test b = true) :
    a.test a.update_local_min.local_min = true ∧
      ∀ c, a.test c = true → a.update_local_min.local_min ≤ c := by
  obtain ⟨j, hj, hne⟩ := exists_word_of_test h hb
  exact update_local_min_from_spec h 256 0 (fun j hj => by omega) ⟨j, by omega, by omega, hne⟩
    (by omega)

theorem update_local_max_spec {a : bitset_array} (h : a.wf) {b : Nat} (hb : a.test b = true) :
    a.test a.update_local_max.local_max = true ∧
      ∀ c, a.test c = true → c ≤ a.update_local_max.local_max := by
  obtain ⟨j, hj, hne⟩ := exists_word_of_test h hb
  refine update_local_max_from_spec h 256 ?_ ⟨j, hj, hne⟩ (by omega)
  intro i hi
  exact getD_of_le _ _ (by rw [h.1]; exact hi)

/-! ### Population count -/

theorem popcount_le (a : bitset_array) : a.popcount ≤ 16384 := by
  unfold popcount
  calc _ ≤ (Finset.range BITSET_SEGMENT_SIZE).card := Finset.card_filter_le _ _
    _ = 16384 := by rw [Finset.card_range]; rfl

theorem popcount_eq_zero {a : bitset_array} (h : a.wf) (h0 : a.popcount = 0) (b : Nat) :
    a.test b = false := by
  unfold popcount at h0
  rw [Finset.card_eq_zero, Finset.filter_eq_empty_iff] at h0
  cases hb : a.test b
  · rfl
  · exact absurd hb (h0 (Finset.mem_range.mpr (test_lt h hb)))

theorem popcount_ne_zero {a : bitset_array} (h : a.wf) {b : Nat} (hb : a.test b = true) :
    a.popcount ≠ 0 := by
  intro h0
  rw [popcount_eq_zero h h0 b] at hb
  exact Bool.noConfusion hb

theorem popcount_congr {a c : bitset_array} (h : ∀ b, a.test b = c.test b) :
    a.popcount = c.popcount := by
  unfold popcount
  rw [Finset.filter_congr (fun b _ => by rw [h b])]

theorem popcount_set {a : bitset_array} (h : a.wf) {bit : Nat} (hb : bit < BITSET_SEGMENT_SIZE)
    (ht : a.test bit = false) : (a.set bit).popcount = a.popcount + 1 := by
  unfold popcount
  have : (Finset.range BITSET_SEGMENT_SIZE).filter (fun b => (a.set bit).test b = true) =
      insert bit ((Finset.range BITSET_SEGMENT_SIZE).filter (fun b => a.test b = true)) := by
    ext b
    simp only [Finset.mem_filter, Finset.mem_range, Finset.mem_insert, test_set h hb,
      Bool.or_eq_true, decide_eq_true_eq]
    constructor
    · rintro ⟨h1, h2 | h2⟩
      · exact Or.inr ⟨h1, h2⟩
      · exact Or.inl h2
    · rintro (h1 | ⟨h1, h2⟩)
      · subst h1; exact ⟨hb, Or.inr rfl⟩
      · exact ⟨h1, Or.inl h2⟩
  rw [this, Finset.card_insert_of_not_mem]
  simp [ht]

theorem popcount_unset {a : bitset_array} (h : a.wf) {bit : Nat} (hb : bit < BITSET_SEGMENT_SIZE)
    (ht : a.test bit = true) : (a.unset bit).popcount + 1 = a.popcount := by
  unfold popcount
  have : (Finset.range BITSET_SEGMENT_SIZE).filter (fun b => (a.unset bit).test b = true) =
      ((Finset.range BITSET_SEGMENT_SIZE).filter (fun b => a.test b = true)).erase bit := by
    ext b
    simp only [Finset.mem_filter, Finset.mem_range, Finset.mem_erase, test_unset h hb,
      Bool.and_eq_true, Bool.not_eq_true', decide_eq_false_iff_not]
    tauto
  rw [this, Finset.card_erase_of_mem (by simp [ht, hb])]
  have : 0 < ((Finset.range BITSET_SEGMENT_SIZE).filter (fun b => a.test b = true)).card :=
    Finset.card_pos.mpr ⟨bit, by simp [ht, hb]⟩
  omega

end bitset_array

namespace bitset_array

/-! ### The segment invariant -/

theorem popcount_of_all_false {a : bitset_array} (h : ∀ b, a.test b = false) : a.popcount = 0 := by
  unfold popcount
  rw [Finset.card_eq_zero, Finset.filter_eq_empty_iff]
  intro b _
  rw [h b]
  exact Bool.false_ne_true

theorem exists_test_of_popcount {a : bitset_array} (h : a.popcount ≠ 0) :
    ∃ b, a.test b = true := by
  by_contra hne
  apply h
  apply popcount_of_all_false
  intro b
  cases hb : a.test b
  · rfl
  · exact absurd ⟨b, hb⟩ hne

theorem inv_fresh : fresh.inv := by
  refine ⟨wf_fresh, ?_, fun _ => ⟨rfl, rfl⟩, fun h => absurd rfl h⟩
  rw [popcount_of_all_false test_fresh]; rfl

theorem set_of_test {a : bitset_array} {bit : Nat} (ht : a.test bit = true) : a.set bit = a := by
  have ht2 := ht
  unfold test at ht2
  unfold set
  simp only []
  rw [if_pos ht2]

theorem set_of_not_test {a : bitset_array} {bit : Nat} (ht : a.test bit = false) :
    a.set bit =
      { words := a.words.set (bit / 64) (a.words.getD (bit / 64) 0 ||| (1 <<< (bit % 64)))
        count := wrap (a.count + 1)
        local_min := min a.local_min bit
        local_max := max a.local_max bit } := by
  have ht2 := ht
  unfold test at ht2
  unfold set
  simp only []
  rw [if_neg (by rw [ht2]; exact Bool.false_ne_true)]
  rfl

theorem unset_of_not_test {a : bitset_array} {bit : Nat} (ht : a.test bit = false) :
    a.unset bit = a := by
  have h0 : ((a.words.getD (bit / 64) 0 &&& (1 <<< (bit % 64))) == 0) = true := by
    rw [and_mask_eq_zero, ← test_eq, ht]; rfl
  unfold unset
  simp only [WORD_BITS]
  rw [if_pos h0]

theorem unset_of_test {a : bitset_array} {bit : Nat} (ht : a.test bit = true) :
    a.unset bit =
      if (a.cleared bit).count == 0 then
        { a.cleared bit with local_min := SIZE_MAX, local_max := 0 }
      else
        if bit == (if bit == (a.cleared bit).local_min then (a.cleared bit).update_local_min
            else a.cleared bit).local_max then
          (if bit == (a.cleared bit).local_min then (a.cleared bit).update_local_min
            else a.cleared bit).update_local_max
        else
          (if bit == (a.cleared bit).local_min then (a.cleared bit).update_local_min
            else a.cleared bit) := by
  have h0 : ¬ ((a.words.getD (bit / 64) 0 &&& (1 <<< (bit % 64))) == 0) = true := by
    rw [and_mask_eq_zero, ← test_eq, ht]; exact Bool.false_ne_true
  unfold unset
  simp only [WORD_BITS]
  rw [if_neg h0]
  rfl

theorem cleared_test {a : bitset_array} (h : a.wf) {bit : Nat} (hb : bit < BITSET_SEGMENT_SIZE)
    (ht : a.test bit = true) (b : Nat) :
    (a.cleared bit).test b = (a.test b && !decide (b = bit)) := by
  rw [← test_unset h hb]
  apply test_congr
  rw [unset_words, if_pos ht]
  rfl

theorem cleared_wf {a : bitset_array} (h : a.wf) {bit : Nat} (ht : a.test bit = true) :
    (a.cleared bit).wf := by
  have := @wf_unset a h bit
  unfold wf at this ⊢
  rw [unset_words, if_pos ht] at this
  exact this

theorem inv_set {a : bitset_array} (h : a.inv) {bit : Nat} (hb : bit < BITSET_SEGMENT_SIZE) :
    (a.set bit).inv := by
  cases ht : a.test bit
  · obtain ⟨hwf, hc, hz, hnz⟩ := h
    have hts := test_set hwf hb
    have hpc := popcount_set hwf hb ht
    have hle := popcount_le a
    have hcount : (a.set bit).count = a.count + 1 := by
      rw [set_count, ht]; simp only [Bool.false_eq_true, if_false]; unfold wrap; omega
    have hmin : (a.set bit).local_min = min a.local_min bit := by rw [set_of_not_test ht]
    have hmax : (a.set bit).local_max = max a.local_max bit := by rw [set_of_not_test ht]
    have hS : BITSET_SEGMENT_SIZE = 16384 := rfl
    have hM : SIZE_MAX = 18446744073709551615 := rfl
    refine ⟨wf_set hwf, by rw [hcount, hpc, hc], fun h0 => by omega, fun _ => ?_⟩
    rw [hmin, hmax]
    by_cases hc0 : a.count = 0
    · obtain ⟨e1, e2⟩ := hz hc0
      have hnone : ∀ b, a.test b = false := popcount_eq_zero hwf (by omega)
      have m1 : min a.local_min bit = bit := by rw [e1]; omega
      have m2 : max a.local_max bit = bit := by rw [e2]; omega
      rw [m1, m2]
      refine ⟨by rw [hts]; simp, by rw [hts]; simp, ?_⟩
      intro b hbt
      rw [hts, hnone b] at hbt
      have : b = bit := by simpa using hbt
      omega
    · obtain ⟨t1, t2, t3⟩ := hnz hc0
      refine ⟨?_, ?_, ?_⟩
      · rw [hts]
        by_cases hle : a.local_min ≤ bit
        · rw [Nat.min_eq_left hle, t1]; rfl
        · rw [Nat.min_eq_right (by omega)]; simp
      · rw [hts]
        by_cases hle : bit ≤ a.local_max
        · rw [Nat.max_eq_left hle, t2]; rfl
        · rw [Nat.max_eq_right (by omega)]; simp
      · intro b hbt
        rw [hts] at hbt
        cases hab : a.test b
        · rw [hab] at hbt
          have : b = bit := by simpa using hbt
          omega
        · have := t3 b hab
          omega
  · rw [set_of_test ht]; exact h

theorem inv_unset {a : bitset_array} (h : a.inv) {bit : Nat} (hb : bit < BITSET_SEGMENT_SIZE) :
    (a.unset bit).inv := by
  cases ht : a.test bit
  · rw [unset_of_not_test ht]; exact h
  · obtain ⟨hwf, hc, hz, hnz⟩ := h
    have hpc := popcount_unset hwf hb ht
    have hle := popcount_le a
    have hM : SIZE_MAX = 18446744073709551615 := rfl
    have hc0 : a.count ≠ 0 := by rw [hc]; exact popcount_ne_zero hwf ht
    obtain ⟨t1, t2, t3⟩ := hnz hc0
    have hcw := cleared_wf hwf ht
    have hct := cleared_test hwf hb ht
    have hcc : (a.cleared bit).count = a.count - 1 := by
      show wrap (a.count + SIZE_MAX) = a.count - 1
      unfold wrap; omega
    have hcp : (a.cleared bit).popcount = (a.unset bit).popcount :=
      popcount_congr (fun b => by rw [hct, test_unset hwf hb])
    rw [unset_of_test ht]
    by_cases hz1 : (a.cleared bit).count = 0
    · have : ((a.cleared bit).count == 0) = true := by rw [hz1]; rfl
      rw [if_pos this]
      refine ⟨hcw, ?_, fun _ => ⟨rfl, rfl⟩, fun hne => absurd hz1 hne⟩
      have e : bitset_array.popcount { a.cleared bit with local_min := SIZE_MAX, local_max := 0 } =
          (a.cleared bit).popcount := popcount_congr (fun b => rfl)
      show (a.cleared bit).count = _
      rw [e, hcp]
      omega
    · have : ¬ ((a.cleared bit).count == 0) = true := by
        intro hh; exact hz1 (by simpa using hh)
      rw [if_neg this]
      have hpos : (a.cleared bit).popcount ≠ 0 := by rw [hcp]; omega
      obtain ⟨b0, hb0⟩ := exists_test_of_popcount hpos
      -- the segment after the optional minimum rescan
      have hmin : ∀ (a2 : bitset_array),
          a2 = (if bit == (a.cleared bit).local_min then (a.cleared bit).update_local_min
            else a.cleared bit) →
          a2.words = (a.cleared bit).words ∧ a2.count = (a.cleared bit).count ∧
          a2.local_max = a.local_max ∧
          ((a.cleared bit).test a2.local_min = true ∧
            ∀ c, (a.cleared bit).test c = true → a2.local_min ≤ c) := by
        intro a2 ha2
        by_cases hbm : bit = a.local_min
        · have : (bit == (a.cleared bit).local_min) = true := by
            show (bit == a.local_min) = true
            rw [hbm]; exact beq_self_eq_true _
          rw [if_pos this] at ha2
          subst ha2
          obtain ⟨w1, w2, w3⟩ := update_local_min_from_words (a.cleared bit) WORD_COUNT 0
          exact ⟨w1, w2, w3, update_local_min_spec hcw hb0⟩
        · have : ¬ (bit == (a.cleared bit).local_min) = true := by
            show ¬ (bit == a.local_min) = true
            intro hh; exact hbm (by simpa using hh)
          rw [if_neg this] at ha2
          subst ha2
          refine ⟨rfl, rfl, rfl, ?_, ?_⟩
          · show (a.cleared bit).test a.local_min = true
            rw [hct, t1]
            have : ¬ a.local_min = bit := fun hh => hbm hh.symm
            simp [this]
          · intro c hcc2
            rw [hct] at hcc2
            have : a.test c = true := by
              cases hac : a.test c
              · rw [hac] at hcc2; exact absurd hcc2 (by simp)
              · rfl
            exact (t3 c this).1
      generalize hgen : (if bit == (a.cleared bit).local_min then (a.cleared bit).update_local_min
            else a.cleared bit) = a2
      obtain ⟨m1, m2, m3, m4, m5⟩ := hmin a2 hgen.symm
      have ha2wf : a2.wf := by unfold wf; rw [m1]; exact hcw
      have ha2t : ∀ b, a2.test b = (a.cleared bit).test b := fun b => test_congr m1 b
      by_cases hbM : bit = a.local_max
      · have : (bit == a2.local_max) = true := by rw [m3, hbM]; exact beq_self_eq_true _
        rw [if_pos this]
        obtain ⟨w1, w2, w3⟩ := update_local_max_from_words a2 WORD_COUNT
        obtain ⟨s1, s2⟩ := update_local_max_spec ha2wf (b := b0) (by rw [ha2t]; exact hb0)
        have htr : ∀ b, a2.update_local_max.test b = (a.cleared bit).test b := fun b => by
          rw [test_congr (show a2.update_local_max.words = a2.words from w1), ha2t]
        refine ⟨by unfold wf; rw [show a2.update_local_max.words = a2.words from w1]; exact ha2wf,
          ?_, ?_, ?_⟩
        · rw [show a2.update_local_max.count = a2.count from w2, m2, popcount_congr htr, hcp]
          omega
        · intro h0
          rw [show a2.update_local_max.count = a2.count from w2, m2] at h0
          exact absurd h0 hz1
        · intro _
          rw [show a2.update_local_max.local_min = a2.local_min from w3]
          refine ⟨by rw [htr]; exact m4, by rw [htr, ← ha2t]; exact s1, ?_⟩
          intro c hc2
          rw [htr] at hc2
          exact ⟨m5 c hc2, s2 c (by rw [ha2t]; exact hc2)⟩
      · have : ¬ (bit == a2.local_max) = true := by
          rw [m3]; intro hh; exact hbM (by simpa using hh)
        rw [if_neg this]
        refine ⟨ha2wf, ?_, ?_, ?_⟩
        · rw [m2, popcount_congr ha2t, hcp]; omega
        · intro h0; rw [m2] at h0; exact absurd h0 hz1
        · intro _
          refine ⟨by rw [ha2t]; exact m4, ?_, ?_⟩
          · rw [ha2t, m3, hct, t2]
            have : ¬ a.local_max = bit := fun hh => hbM hh.symm
            simp [this]
          · intro c hc2
            rw [ha2t] at hc2
            refine ⟨m5 c hc2, ?_⟩
            rw [m3]
            rw [hct] at hc2
            have : a.test c = true := by
              cases hac : a.test c
              · rw [hac] at hc2; exact absurd hc2 (by simp)
              · rfl
            exact (t3 c this).2

end bitset_array

/-! ## The directory -/

theorem seg_find_store (m : List (Nat × bitset_array)) (k : Nat) (v : bitset_array) (j : Nat) :
    seg_find (seg_store m k v) j = if k = j then some v else seg_find m j := by
  induction m with
  | nil => simp [seg_store, seg_find]
  | cons p rest ih =>
    obtain ⟨k0, a⟩ := p
    unfold seg_store
    by_cases h1 : k < k0
    · rw [if_pos h1]
      simp only [seg_find]
    · rw [if_neg h1]
      by_cases h2 : k0 = k
      · rw [if_pos h2]
        simp only [seg_find]
        by_cases h3 : k = j
        · simp [h3]
        · have : ¬ k0 = j := by omega
          simp [h3, this]
      · rw [if_neg h2]
        simp only [seg_find]
        by_cases h3 : k0 = j
        · have : ¬ k = j := by omega
          simp [h3, this]
        · simp only [h3, if_false]
          exact ih

theorem store_keys (m : List (Nat × bitset_array)) (k : Nat) (v : bitset_array) :
    ∀ x ∈ (seg_store m k v).map Prod.fst, x = k ∨ x ∈ m.map Prod.fst := by
  induction m with
  | nil => intro x hx; simp [seg_store] at hx; exact Or.inl hx
  | cons p rest ih =>
    obtain ⟨k0, a⟩ := p
    intro x hx
    unfold seg_store at hx
    by_cases h1 : k < k0
    · rw [if_pos h1] at hx
      simp only [List.map_cons, List.mem_cons] at hx ⊢
      tauto
    · rw [if_neg h1] at hx
      by_cases h2 : k0 = k
      · rw [if_pos h2] at hx
        simp only [List.map_cons, List.mem_cons] at hx ⊢
        tauto
      · rw [if_neg h2] at hx
        simp only [List.map_cons, List.mem_cons] at hx ⊢
        rcases hx with hx | hx
        · tauto
        · rcases ih x hx with h | h
          · tauto
          · tauto

theorem keys_sorted_store {m : List (Nat × bitset_array)} (h : keys_sorted m) (k : Nat)
    (v : bitset_array) : keys_sorted (seg_store m k v) := by
  induction m with
  | nil => simp [seg_store, keys_sorted]
  | cons p rest ih =>
    obtain ⟨k0, a⟩ := p
    unfold keys_sorted at h ih ⊢
    simp only [List.map_cons, List.pairwise_cons] at h
    unfold seg_store
    by_cases h1 : k < k0
    · rw [if_pos h1]
      simp only [List.map_cons, List.pairwise_cons, List.mem_cons]
      refine ⟨?_, h.1, h.2⟩
      rintro x (hx | hx)
      · omega
      · have := h.1 x hx; omega
    · rw [if_neg h1]
      by_cases h2 : k0 = k
      · rw [if_pos h2]
        simp only [List.map_cons, List.pairwise_cons]
        subst h2
        exact h
      · rw [if_neg h2]
        simp only [List.map_cons, List.pairwise_cons]
        refine ⟨?_, ih h.2⟩
        intro x hx
        rcases store_keys rest k v x hx with hx | hx
        · omega
        · exact h.1 x hx

theorem seg_find_none_of_lt {m : List (Nat × bitset_array)} {k : Nat}
    (h : ∀ x ∈ m.map Prod.fst, k < x) : seg_find m k = none := by
  induction m with
  | nil => rfl
  | cons p rest ih =>
    obtain ⟨k0, a⟩ := p
    simp only [List.map_cons, List.mem_cons, forall_eq_or_imp] at h
    simp only [seg_find]
    rw [if_neg (by omega)]
    exact ih h.2

theorem mem_of_seg_find {m : List (Nat × bitset_array)} {k : Nat} {a : bitset_array}
    (h : seg_find m k = some a) : (k, a) ∈ m := by
  induction m with
  | nil => simp [seg_find] at h
  | cons p rest ih =>
    obtain ⟨k0, a0⟩ := p
    simp only [seg_find] at h
    by_cases h1 : k0 = k
    · rw [if_pos h1] at h
      injection h with h
      subst h; subst h1
      exact List.mem_cons_self _ _
    · rw [if_neg h1] at h
      exact List.mem_cons_of_mem _ (ih h)

theorem seg_find_of_mem {m : List (Nat × bitset_array)} (hs : keys_sorted m) {k : Nat}
    {a : bitset_array} (h : (k, a) ∈ m) : seg_find m k = some a := by
  induction m with
  | nil => simp at h
  | cons p rest ih =>
    obtain ⟨k0, a0⟩ := p
    unfold keys_sorted at hs ih
    simp only [List.map_cons, List.pairwise_cons] at hs
    simp only [seg_find]
    rcases List.mem_cons.mp h with h | h
    · injection h with h1 h2
      subst h1; subst h2
      simp
    · have hk : k ∈ rest.map Prod.fst := List.mem_map.mpr ⟨(k, a), h, rfl⟩
      have := hs.1 k hk
      rw [if_neg (by omega)]
      exact ih hs.2 h

theorem seg_store_same {m : List (Nat × bitset_array)} (hs : keys_sorted m) {k : Nat}
    {a : bitset_array} (h : seg_find m k = some a) : seg_store m k a = m := by
  induction m with
  | nil => simp [seg_find] at h
  | cons p rest ih =>
    obtain ⟨k0, a0⟩ := p
    unfold keys_sorted at hs ih
    simp only [List.map_cons, List.pairwise_cons] at hs
    simp only [seg_find] at h
    unfold seg_store
    by_cases h1 : k0 = k
    · rw [if_pos h1] at h
      injection h with h
      subst h; subst h1
      simp
    · rw [if_neg h1] at h
      have hk : k ∈ rest.map Prod.fst := List.mem_map.mpr ⟨(k, a), mem_of_seg_find h, rfl⟩
      have := hs.1 k hk
      rw [if_neg (by omega), if_neg h1, ih hs.2 h]

/-! ## Membership after each call -/

theorem get_eq_dir_get (s : bitset_segmented) (i : Nat) : s.get i = dir_get s.segments i := rfl

theorem getD_fresh_wf {m : List (Nat × bitset_array)} (h : dir_wf m) (k : Nat) :
    ((seg_find m k).getD bitset_array.fresh).wf := by
  cases hf : seg_find m k with
  | none => exact bitset_array.wf_fresh
  | some a => exact h k a hf

theorem getD_fresh_test (m : List (Nat × bitset_array)) (j : Nat) :
    ((seg_find m (j / BITSET_SEGMENT_SIZE)).getD bitset_array.fresh).test (j % BITSET_SEGMENT_SIZE) =
      dir_get m j := by
  unfold dir_get
  cases hf : seg_find m (j / BITSET_SEGMENT_SIZE) with
  | none => exact bitset_array.test_fresh _
  | some a => rfl

theorem mod_seg_lt (i : Nat) : i % BITSET_SEGMENT_SIZE < BITSET_SEGMENT_SIZE :=
  Nat.mod_lt _ (by decide)

theorem index_eq_iff (i j : Nat) (h : i / BITSET_SEGMENT_SIZE = j / BITSET_SEGMENT_SIZE) :
    j % BITSET_SEGMENT_SIZE = i % BITSET_SEGMENT_SIZE ↔ j = i := by
  have hS : BITSET_SEGMENT_SIZE = 16384 := rfl
  rw [hS] at h ⊢
  omega

theorem dir_get_store_set {m : List (Nat × bitset_array)} (h : dir_wf m) (i j : Nat) :
    dir_get (seg_store m (i / BITSET_SEGMENT_SIZE)
      (((seg_find m (i / BITSET_SEGMENT_SIZE)).getD bitset_array.fresh).set
        (i % BITSET_SEGMENT_SIZE))) j = (dir_get m j || decide (j = i)) := by
  by_cases hk : i / BITSET_SEGMENT_SIZE = j / BITSET_SEGMENT_SIZE
  · have e : dir_get (seg_store m (i / BITSET_SEGMENT_SIZE)
        (((seg_find m (i / BITSET_SEGMENT_SIZE)).getD bitset_array.fresh).set
          (i % BITSET_SEGMENT_SIZE))) j =
        (((seg_find m (i / BITSET_SEGMENT_SIZE)).getD bitset_array.fresh).set
          (i % BITSET_SEGMENT_SIZE)).test (j % BITSET_SEGMENT_SIZE) := by
      unfold dir_get
      rw [seg_find_store, if_pos hk]
    rw [e, bitset_array.test_set (getD_fresh_wf h _) (mod_seg_lt i), hk, getD_fresh_test]
    congr 1
    exact decide_eq_decide.mpr (index_eq_iff i j hk)
  · have e : dir_get (seg_store m (i / BITSET_SEGMENT_SIZE)
        (((seg_find m (i / BITSET_SEGMENT_SIZE)).getD bitset_array.fresh).set
          (i % BITSET_SEGMENT_SIZE))) j = dir_get m j := by
      unfold dir_get
      rw [seg_find_store, if_neg hk]
    have : ¬ j = i := by intro hh; subst hh; exact hk rfl
    rw [e]; simp [this]

theorem dir_get_store_unset {m : List (Nat × bitset_array)} (h : dir_wf m) (i j : Nat)
    {a : bitset_array} (ha : seg_find m (i / BITSET_SEGMENT_SIZE) = some a) :
    dir_get (seg_store m (i / BITSET_SEGMENT_SIZE) (a.unset (i % BITSET_SEGMENT_SIZE))) j =
      (dir_get m j && !decide (j = i)) := by
  by_cases hk : i / BITSET_SEGMENT_SIZE = j / BITSET_SEGMENT_SIZE
  · have e : dir_get (seg_store m (i / BITSET_SEGMENT_SIZE)
        (a.unset (i % BITSET_SEGMENT_SIZE))) j =
        (a.unset (i % BITSET_SEGMENT_SIZE)).test (j % BITSET_SEGMENT_SIZE) := by
      unfold dir_get
      rw [seg_find_store, if_pos hk]
    have e2 : dir_get m j = a.test (j % BITSET_SEGMENT_SIZE) := by
      unfold dir_get
      rw [← hk, ha]
    rw [e, bitset_array.test_unset (h _ _ ha) (mod_seg_lt i), e2]
    congr 2
    exact decide_eq_decide.mpr (index_eq_iff i j hk)
  · have e : dir_get (seg_store m (i / BITSET_SEGMENT_SIZE)
        (a.unset (i % BITSET_SEGMENT_SIZE))) j = dir_get m j := by
      unfold dir_get
      rw [seg_find_store, if_neg hk]
    have : ¬ j = i := by intro hh; subst hh; exact hk rfl
    rw [e]; simp [this]

theorem dir_wf_store {m : List (Nat × bitset_array)} (h : dir_wf m) (k : Nat)
    {v : bitset_array} (hv : v.wf) : dir_wf (seg_store m k v) := by
  intro j a hf
  rw [seg_find_store] at hf
  by_cases hk : k = j
  · rw [if_pos hk] at hf
    injection hf with hf
    subst hf; exact hv
  · rw [if_neg hk] at hf
    exact h j a hf

theorem dir_ok_store {m : List (Nat × bitset_array)} (h : dir_ok m) {k : Nat}
    (hk : k < 1125899906842624) {v : bitset_array} (hv : v.inv) : dir_ok (seg_store m k v) := by
  refine ⟨keys_sorted_store h.1 k v, ?_⟩
  intro j a hf
  rw [seg_find_store] at hf
  by_cases hkj : k = j
  · rw [if_pos hkj] at hf
    injection hf with hf
    subst hf; subst hkj; exact ⟨hk, hv⟩
  · rw [if_neg hkj] at hf
    exact h.2 j a hf

theorem dir_wf_of_ok {m : List (Nat × bitset_array)} (h : dir_ok m) : dir_wf m :=
  fun k a hf => (h.2 k a hf).2.1

theorem getD_fresh_inv {m : List (Nat × bitset_array)} (h : dir_ok m) (k : Nat) :
    ((seg_find m k).getD bitset_array.fresh).inv := by
  cases hf : seg_find m k with
  | none => exact bitset_array.inv_fresh
  | some a => exact (h.2 k a hf).2

/-! ### The reservation loop -/

theorem seg_find_reserve_step (m : List (Nat × bitset_array)) (i k : Nat) :
    seg_find (bitset_segmented.reserve_step m i) k =
      match seg_find m k with
      | some a => some a
      | none => if i = k then some bitset_array.fresh else none := by
  unfold bitset_segmented.reserve_step
  cases hi : seg_find m i with
  | some b =>
    simp only []
    cases hk : seg_find m k with
    | some a => rfl
    | none =>
      simp only []
      have : ¬ i = k := by intro hh; subst hh; rw [hi] at hk; exact Option.noConfusion hk
      rw [if_neg this]
  | none =>
    simp only []
    rw [seg_find_store]
    by_cases hik : i = k
    · subst hik; rw [hi, if_pos rfl]
    · rw [if_neg hik]
      cases hk : seg_find m k
      · simp only [if_neg hik]
      · rfl

theorem dir_get_reserve_step (m : List (Nat × bitset_array)) (i j : Nat) :
    dir_get (bitset_segmented.reserve_step m i) j = dir_get m j := by
  unfold dir_get
  rw [seg_find_reserve_step]
  cases hk : seg_find m (j / BITSET_SEGMENT_SIZE) with
  | some a => rfl
  | none =>
    simp only []
    by_cases hij : i = j / BITSET_SEGMENT_SIZE
    · rw [if_pos hij]; exact bitset_array.test_fresh _
    · rw [if_neg hij]

theorem dir_get_reserve (l : List Nat) (m : List (Nat × bitset_array)) (j : Nat) :
    dir_get (l.foldl bitset_segmented.reserve_step m) j = dir_get m j := by
  induction l generalizing m with
  | nil => rfl
  | cons x xs ih => rw [List.foldl_cons, ih, dir_get_reserve_step]

theorem dir_wf_reserve_step {m : List (Nat × bitset_array)} (h : dir_wf m) (i : Nat) :
    dir_wf (bitset_segmented.reserve_step m i) := by
  unfold bitset_segmented.reserve_step
  cases hi : seg_find m i with
  | some b => exact h
  | none => exact dir_wf_store h i bitset_array.wf_fresh

theorem dir_wf_reserve (l : List Nat) {m : List (Nat × bitset_array)} (h : dir_wf m) :
    dir_wf (l.foldl bitset_segmented.reserve_step m) := by
  induction l generalizing m with
  | nil => exact h
  | cons x xs ih => rw [List.foldl_cons]; exact ih (dir_wf_reserve_step h x)

theorem dir_ok_reserve_step {m : List (Nat × bitset_array)} (h : dir_ok m) {i : Nat}
    (hi : i < 1125899906842624) : dir_ok (bitset_segmented.reserve_step m i) := by
  unfold bitset_segmented.reserve_step
  cases hf : seg_find m i with
  | some b => exact h
  | none => exact dir_ok_store h hi bitset_array.inv_fresh

theorem dir_ok_reserve (l : List Nat) (hl : ∀ i ∈ l, i < 1125899906842624)
    {m : List (Nat × bitset_array)} (h : dir_ok m) :
    dir_ok (l.foldl bitset_segmented.reserve_step m) := by
  induction l generalizing m with
  | nil => exact h
  | cons x xs ih =>
    rw [List.foldl_cons]
    exact ih (fun i hi => hl i (List.mem_cons_of_mem _ hi))
      (dir_ok_reserve_step h (hl x (List.mem_cons_self _ _)))

/-! ## The global rescans -/

namespace bitset_segmented

theorem foldl_head_step_spec (l : List (Nat × bitset_array)) : ∀ (acc : Nat),
    l.foldl head_step acc ≤ acc ∧
    (∀ p ∈ l, p.2.count ≠ 0 →
      l.foldl head_step acc ≤ wrap (p.1 * BITSET_SEGMENT_SIZE + p.2.local_min)) ∧
    (l.foldl head_step acc = acc ∨ ∃ p ∈ l, p.2.count ≠ 0 ∧
      l.foldl head_step acc = wrap (p.1 * BITSET_SEGMENT_SIZE + p.2.local_min)) := by
  induction l with
  | nil => intro acc; exact ⟨Nat.le_refl _, fun p hp => absurd hp (List.not_mem_nil p), Or.inl rfl⟩
  | cons q rest ih =>
    intro acc
    rw [List.foldl_cons]
    obtain ⟨i1, i2, i3⟩ := ih (head_step acc q)
    have hstep : head_step acc q ≤ acc ∧
        (q.2.count ≠ 0 → head_step acc q ≤ wrap (q.1 * BITSET_SEGMENT_SIZE + q.2.local_min)) ∧
        (head_step acc q = acc ∨ (q.2.count ≠ 0 ∧
          head_step acc q = wrap (q.1 * BITSET_SEGMENT_SIZE + q.2.local_min))) := by
      unfold head_step
      by_cases hc : q.2.count = 0
      · have : (q.2.count != 0) = false := by rw [hc]; rfl
        rw [this]
        exact ⟨Nat.le_refl _, fun h => absurd hc h, Or.inl rfl⟩
      · have : (q.2.count != 0) = true := bne_iff_ne.mpr hc
        rw [if_pos this]
        simp only []
        by_cases hlt : wrap (q.1 * BITSET_SEGMENT_SIZE + q.2.local_min) < acc
        · rw [if_pos hlt]
          exact ⟨Nat.le_of_lt hlt, fun _ => Nat.le_refl _, Or.inr ⟨hc, rfl⟩⟩
        · rw [if_neg hlt]
          exact ⟨Nat.le_refl _, fun _ => Nat.le_of_not_lt hlt, Or.inl rfl⟩
    obtain ⟨s1, s2, s3⟩ := hstep
    refine ⟨Nat.le_trans i1 s1, ?_, ?_⟩
    · intro p hp hc
      rcases List.mem_cons.mp hp with hp | hp
      · subst hp; exact Nat.le_trans i1 (s2 hc)
      · exact i2 p hp hc
    · rcases i3 with i3 | ⟨p, hp, hc, he⟩
      · rcases s3 with s3 | ⟨hc, he⟩
        · left; rw [i3, s3]
        · right; exact ⟨q, List.mem_cons_self _ _, hc, by rw [i3, he]⟩
      · right; exact ⟨p, List.mem_cons_of_mem _ hp, hc, he⟩

theorem foldl_tail_step_spec (l : List (Nat × bitset_array)) : ∀ (acc : Nat),
    acc ≤ l.foldl tail_step acc ∧
    (∀ p ∈ l, p.2.count ≠ 0 →
      wrap (p.1 * BITSET_SEGMENT_SIZE + p.2.local_max + 1) ≤ l.foldl tail_step acc) ∧
    (l.foldl tail_step acc = acc ∨ ∃ p ∈ l, p.2.count ≠ 0 ∧
      l.foldl tail_step acc = wrap (p.1 * BITSET_SEGMENT_SIZE + p.2.local_max + 1)) := by
  induction l with
  | nil => intro acc; exact ⟨Nat.le_refl _, fun p hp => absurd hp (List.not_mem_nil p), Or.inl rfl⟩
  | cons q rest ih =>
    intro acc
    rw [List.foldl_cons]
    obtain ⟨i1, i2, i3⟩ := ih (tail_step acc q)
    have hstep : acc ≤ tail_step acc q ∧
        (q.2.count ≠ 0 → wrap (q.1 * BITSET_SEGMENT_SIZE + q.2.local_max + 1) ≤ tail_step acc q) ∧
        (tail_step acc q = acc ∨ (q.2.count ≠ 0 ∧
          tail_step acc q = wrap (q.1 * BITSET_SEGMENT_SIZE + q.2.local_max + 1))) := by
      unfold tail_step
      by_cases hc : q.2.count = 0
      · have : (q.2.count != 0) = false := by rw [hc]; rfl
        rw [this]
        exact ⟨Nat.le_refl _, fun h => absurd hc h, Or.inl rfl⟩
      · have : (q.2.count != 0) = true := bne_iff_ne.mpr hc
        rw [if_pos this]
        simp only []
        by_cases hlt : wrap (q.1 * BITSET_SEGMENT_SIZE + q.2.local_max + 1) > acc
        · rw [if_pos hlt]
          exact ⟨Nat.le_of_lt hlt, fun _ => Nat.le_refl _, Or.inr ⟨hc, rfl⟩⟩
        · rw [if_neg hlt]
          exact ⟨Nat.le_refl _, fun _ => Nat.le_of_not_lt hlt, Or.inl rfl⟩
    obtain ⟨s1, s2, s3⟩ := hstep
    refine ⟨Nat.le_trans s1 i1, ?_, ?_⟩
    · intro p hp hc
      rcases List.mem_cons.mp hp with hp | hp
      · subst hp; exact Nat.le_trans (s2 hc) i1
      · exact i2 p hp hc
    · rcases i3 with i3 | ⟨p, hp, hc, he⟩
      · rcases s3 with s3 | ⟨hc, he⟩
        · left; rw [i3, s3]
        · right; exact ⟨q, List.mem_cons_self _ _, hc, by rw [i3, he]⟩
      · right; exact ⟨p, List.mem_cons_of_mem _ hp, hc, he⟩

end bitset_segmented

/-- A set index lies in a segment with bits, between the offsets cached by that segment. -/
theorem dir_get_true {m : List (Nat × bitset_array)} (h : dir_ok m) {i : Nat}
    (hi : dir_get m i = true) :
    ∃ a, seg_find m (i / BITSET_SEGMENT_SIZE) = some a ∧ a.count ≠ 0 ∧
      a.test (i % BITSET_SEGMENT_SIZE) = true ∧
      a.local_min ≤ i % BITSET_SEGMENT_SIZE ∧ i % BITSET_SEGMENT_SIZE ≤ a.local_max ∧
      i / BITSET_SEGMENT_SIZE < 1125899906842624 := by
  unfold dir_get at hi
  cases hf : seg_find m (i / BITSET_SEGMENT_SIZE) with
  | none => rw [hf] at hi; exact Bool.noConfusion hi
  | some a =>
    rw [hf] at hi
    simp only [] at hi
    obtain ⟨hk, hwf, hc, _, hnz⟩ := h.2 _ _ hf
    have hc0 : a.count ≠ 0 := by rw [hc]; exact bitset_array.popcount_ne_zero hwf hi
    obtain ⟨_, _, t3⟩ := hnz hc0
    exact ⟨a, rfl, hc0, hi, (t3 _ hi).1, (t3 _ hi).2, hk⟩

theorem dir_get_lt {m : List (Nat × bitset_array)} (h : dir_ok m) {i : Nat}
    (hi : dir_get m i = true) : i < 18446744073709551616 := by
  obtain ⟨a, _, _, _, _, _, hk⟩ := dir_get_true h hi
  have hS : BITSET_SEGMENT_SIZE = 16384 := rfl
  rw [hS] at hk
  omega

/-- The entry of a segment with bits yields two set indices: its cached extrema. -/
theorem dir_get_extrema {m : List (Nat × bitset_array)} (h : dir_ok m) {p : Nat × bitset_array}
    (hp : p ∈ m) (hc : p.2.count ≠ 0) :
    p.2.local_min < 16384 ∧ p.2.local_max < 16384 ∧ p.1 < 1125899906842624 ∧
    dir_get m (p.1 * 16384 + p.2.local_min) = true ∧
    dir_get m (p.1 * 16384 + p.2.local_max) = true := by
  obtain ⟨k, a⟩ := p
  have hf := seg_find_of_mem h.1 hp
  obtain ⟨hk, hwf, _, _, hnz⟩ := h.2 _ _ hf
  obtain ⟨t1, t2, _⟩ := hnz hc
  have l1 : a.local_min < 16384 := bitset_array.test_lt hwf t1
  have l2 : a.local_max < 16384 := bitset_array.test_lt hwf t2
  have hS : BITSET_SEGMENT_SIZE = 16384 := rfl
  refine ⟨l1, l2, hk, ?_, ?_⟩
  · unfold dir_get
    have e1 : (k * 16384 + a.local_min) / BITSET_SEGMENT_SIZE = k := by rw [hS]; omega
    have e2 : (k * 16384 + a.local_min) % BITSET_SEGMENT_SIZE = a.local_min := by rw [hS]; omega
    simp only [e1, e2, hf]
    exact t1
  · unfold dir_get
    have e1 : (k * 16384 + a.local_max) / BITSET_SEGMENT_SIZE = k := by rw [hS]; omega
    have e2 : (k * 16384 + a.local_max) % BITSET_SEGMENT_SIZE = a.local_max := by rw [hS]; omega
    simp only [e1, e2, hf]
    exact t2

namespace bitset_segmented

theorem update_head_from_ok (s : bitset_segmented) (h : dir_ok s.segments) :
    head_ok s.update_head_from := by
  obtain ⟨f1, f2, f3⟩ := foldl_head_step_spec s.segments SIZE_MAX
  have hS : BITSET_SEGMENT_SIZE = 16384 := rfl
  constructor
  · intro i hi
    have hi2 : dir_get s.segments i = true := hi
    obtain ⟨a, hf, hc, _, hlo, _, hk⟩ := dir_get_true h hi2
    have := f2 (i / BITSET_SEGMENT_SIZE, a) (mem_of_seg_find hf) hc
    show s.segments.foldl head_step SIZE_MAX ≤ i
    refine Nat.le_trans this ?_
    simp only [wrap, hS] at hlo hk ⊢
    omega
  · rcases f3 with f3 | ⟨p, hp, hc, he⟩
    · left; exact f3
    · right
      obtain ⟨l1, _, hk, g1, _⟩ := dir_get_extrema h hp hc
      show dir_get s.segments (s.segments.foldl head_step SIZE_MAX) = true
      have : wrap (p.1 * BITSET_SEGMENT_SIZE + p.2.local_min) = p.1 * 16384 + p.2.local_min := by
        simp only [wrap, hS]; omega
      rw [he, this]; exact g1

theorem update_tail_from_ok (s : bitset_segmented) (h : dir_ok s.segments)
    (hmax : s.get SIZE_MAX = false) : tail_ok s.update_tail_from := by
  obtain ⟨f1, f2, f3⟩ := foldl_tail_step_spec s.segments 0
  have hS : BITSET_SEGMENT_SIZE = 16384 := rfl
  have hM : SIZE_MAX = 18446744073709551615 := rfl
  refine ⟨hmax, ?_, ?_⟩
  · intro i hi
    have hi2 : dir_get s.segments i = true := hi
    obtain ⟨a, hf, hc, _, _, hhi, hk⟩ := dir_get_true h hi2
    obtain ⟨_, l2, _, _, g2⟩ := dir_get_extrema h (mem_of_seg_find hf) hc
    have l3 : a.local_max < 16384 := l2
    have hne : i / BITSET_SEGMENT_SIZE * 16384 + a.local_max ≠ SIZE_MAX := by
      intro hh
      simp only [] at g2
      rw [hh] at g2
      have : s.get SIZE_MAX = true := g2
      rw [hmax] at this; exact Bool.noConfusion this
    have := f2 (i / BITSET_SEGMENT_SIZE, a) (mem_of_seg_find hf) hc
    show i < s.segments.foldl tail_step 0
    refine Nat.lt_of_lt_of_le ?_ this
    simp only [wrap, hS, hM] at hhi hk hne l3 ⊢
    omega
  · rcases f3 with f3 | ⟨p, hp, hc, he⟩
    · left; exact f3
    · right
      obtain ⟨_, l2, hk, _, g2⟩ := dir_get_extrema h hp hc
      have hne : p.1 * 16384 + p.2.local_max ≠ SIZE_MAX := by
        intro hh
        rw [hh] at g2
        have : s.get SIZE_MAX = true := g2
        rw [hmax] at this; exact Bool.noConfusion this
      show dir_get s.segments (s.segments.foldl tail_step 0 - 1) = true
      have : wrap (p.1 * BITSET_SEGMENT_SIZE + p.2.local_max + 1) - 1 =
          p.1 * 16384 + p.2.local_max := by
        simp only [wrap, hS, hM] at hne ⊢; omega
      rw [he, this]; exact g2

end bitset_segmented

/-! ## The calls in closed form -/

namespace bitset_segmented

theorem set_eq (s : bitset_segmented) (i : Nat) :
    s.set i =
      { segments := seg_store s.segments (i / BITSET_SEGMENT_SIZE)
          (((seg_find s.segments (i / BITSET_SEGMENT_SIZE)).getD bitset_array.fresh).set
            (i % BITSET_SEGMENT_SIZE))
        head_index :=
          if ((seg_find s.segments (i / BITSET_SEGMENT_SIZE)).getD bitset_array.fresh).count = 0 then
            if s.head_index > i then
              (seg_store s.segments (i / BITSET_SEGMENT_SIZE)
                (((seg_find s.segments (i / BITSET_SEGMENT_SIZE)).getD bitset_array.fresh).set
                  (i % BITSET_SEGMENT_SIZE))).foldl head_step SIZE_MAX
            else s.head_index
          else min s.head_index i
        tail_index :=
          if ((seg_find s.segments (i / BITSET_SEGMENT_SIZE)).getD bitset_array.fresh).count = 0 then
            if s.tail_index < wrap (i + 1) then
              (seg_store s.segments (i / BITSET_SEGMENT_SIZE)
                (((seg_find s.segments (i / BITSET_SEGMENT_SIZE)).getD bitset_array.fresh).set
                  (i % BITSET_SEGMENT_SIZE))).foldl tail_step 0
            else s.tail_index
          else max s.tail_index (wrap (i + 1)) } := by
  unfold set
  simp only []
  by_cases hc : ((seg_find s.segments (i / BITSET_SEGMENT_SIZE)).getD bitset_array.fresh).count = 0
  · have : (((seg_find s.segments (i / BITSET_SEGMENT_SIZE)).getD bitset_array.fresh).count == 0)
        = true := by rw [hc]; rfl
    rw [if_pos this, if_pos hc, if_pos hc]
    by_cases h1 : s.head_index > i <;> by_cases h2 : s.tail_index < wrap (i + 1) <;>
      simp only [h1, h2, if_true, if_false, update_head_from, update_tail_from]
  · have : ¬ (((seg_find s.segments (i / BITSET_SEGMENT_SIZE)).getD bitset_array.fresh).count == 0)
        = true := by intro hh; exact hc (by simpa using hh)
    rw [if_neg this, if_neg hc, if_neg hc]

theorem unset_snd (s : bitset_segmented) (i : Nat) : (s.unset i).2 = s.get i := by
  unfold unset get
  simp only []
  cases hf : seg_find s.segments (i / BITSET_SEGMENT_SIZE) with
  | none => rfl
  | some a =>
    simp only []
    cases ht : a.test (i % BITSET_SEGMENT_SIZE) <;> simp

theorem unset_of_not_get (s : bitset_segmented) (i : Nat) (h : s.get i = false) :
    s.unset i = (s, false) := by
  unfold get at h
  unfold unset
  simp only [] at h ⊢
  cases hf : seg_find s.segments (i / BITSET_SEGMENT_SIZE) with
  | none => rfl
  | some a =>
    rw [hf] at h
    simp only [] at h ⊢
    rw [h]; rfl

theorem unset_of_get (s : bitset_segmented) (i : Nat) {a : bitset_array}
    (hf : seg_find s.segments (i / BITSET_SEGMENT_SIZE) = some a)
    (ht : a.test (i % BITSET_SEGMENT_SIZE) = true) :
    (s.unset i).1 =
      { segments := seg_store s.segments (i / BITSET_SEGMENT_SIZE)
          (a.unset (i % BITSET_SEGMENT_SIZE))
        head_index :=
          if i = s.head_index then
            (seg_store s.segments (i / BITSET_SEGMENT_SIZE)
              (a.unset (i % BITSET_SEGMENT_SIZE))).foldl head_step SIZE_MAX
          else s.head_index
        tail_index :=
          if wrap (i + 1) = s.tail_index then
            (seg_store s.segments (i / BITSET_SEGMENT_SIZE)
              (a.unset (i % BITSET_SEGMENT_SIZE))).foldl tail_step 0
          else s.tail_index } := by
  unfold unset
  simp only [hf, ht, Bool.not_true, Bool.false_eq_true, if_false]
  by_cases h1 : i = s.head_index
  · have b1 : (i == s.head_index) = true := by rw [h1]; exact beq_self_eq_true _
    rw [if_pos b1, if_pos h1]
    by_cases h2 : wrap (i + 1) = s.tail_index
    · have b2 : (wrap (i + 1) == s.tail_index) = true := by rw [h2]; exact beq_self_eq_true _
      rw [if_pos h2]
      simp only [update_head_from, update_tail_from, b2, if_true]
    · have b2 : (wrap (i + 1) == s.tail_index) = false := beq_false_of_ne h2
      rw [if_neg h2]
      simp only [update_head_from, update_tail_from, b2, Bool.false_eq_true, if_false]
  · have b1 : (i == s.head_index) = false := beq_false_of_ne h1
    rw [b1, if_neg h1]
    simp only [Bool.false_eq_true, if_false]
    by_cases h2 : wrap (i + 1) = s.tail_index
    · have b2 : (wrap (i + 1) == s.tail_index) = true := by rw [h2]; exact beq_self_eq_true _
      rw [if_pos h2]
      simp only [update_head_from, update_tail_from, b2, if_true]
    · have b2 : (wrap (i + 1) == s.tail_index) = false := beq_false_of_ne h2
      rw [if_neg h2]
      simp only [update_head_from, update_tail_from, b2, Bool.false_eq_true, if_false]

theorem reserve_segments (s : bitset_segmented) (m : Nat) :
    (s.reserve_for_max_index m).segments =
      (List.range (wrap (m + BITSET_SEGMENT_SIZE - 1) / BITSET_SEGMENT_SIZE)).foldl
        reserve_step s.segments := rfl

theorem reserve_head (s : bitset_segmented) (m : Nat) :
    (s.reserve_for_max_index m).head_index = s.head_index := rfl

theorem reserve_tail (s : bitset_segmented) (m : Nat) :
    (s.reserve_for_max_index m).tail_index = s.tail_index := rfl

/-! ## Membership after a call -/

theorem get_set {s : bitset_segmented} (h : dir_wf s.segments) (i j : Nat) :
    (s.set i).get j = (s.get j || decide (j = i)) := by
  rw [set_eq, get_eq_dir_get, get_eq_dir_get]
  exact dir_get_store_set h i j

theorem get_unset {s : bitset_segmented} (h : dir_wf s.segments) (i j : Nat) :
    (s.unset i).1.get j = (s.get j && !decide (j = i)) := by
  cases hg : s.get i
  · rw [unset_of_not_get s i hg]
    by_cases hji : j = i
    · subst hji; simp [hg]
    · simp [hji]
  · have hg2 := hg
    unfold get at hg2
    simp only [] at hg2
    cases hf : seg_find s.segments (i / BITSET_SEGMENT_SIZE) with
    | none => rw [hf] at hg2; exact Bool.noConfusion hg2
    | some a =>
      rw [hf] at hg2
      simp only [] at hg2
      rw [unset_of_get s i hf hg2, get_eq_dir_get, get_eq_dir_get]
      exact dir_get_store_unset h i j hf

theorem get_reserve (s : bitset_segmented) (m j : Nat) :
    (s.reserve_for_max_index m).get j = s.get j := by
  rw [get_eq_dir_get, reserve_segments, dir_get_reserve]
  rfl

/-! ## Preservation of the directory invariants -/

theorem dir_wf_set {s : bitset_segmented} (h : dir_wf s.segments) (i : Nat) :
    dir_wf (s.set i).segments := by
  rw [set_eq]
  exact dir_wf_store h _ (bitset_array.wf_set (getD_fresh_wf h _))

theorem dir_wf_unset {s : bitset_segmented} (h : dir_wf s.segments) (i : Nat) :
    dir_wf (s.unset i).1.segments := by
  cases hf : seg_find s.segments (i / BITSET_SEGMENT_SIZE) with
  | none =>
    have : s.get i = false := by unfold get; simp only [hf]
    rw [unset_of_not_get s i this]; exact h
  | some a =>
    cases ht : a.test (i % BITSET_SEGMENT_SIZE)
    · have : s.get i = false := by unfold get; simp only [hf]; exact ht
      rw [unset_of_not_get s i this]; exact h
    · rw [unset_of_get s i hf ht]
      exact dir_wf_store h _ (bitset_array.wf_unset (h _ _ hf))

theorem dir_wf_reserve_call {s : bitset_segmented} (h : dir_wf s.segments) (m : Nat) :
    dir_wf (s.reserve_for_max_index m).segments := by
  rw [reserve_segments]
  exact dir_wf_reserve _ h

theorem dir_ok_set {s : bitset_segmented} (h : dir_ok s.segments) {i : Nat}
    (hi : i < 18446744073709551616) : dir_ok (s.set i).segments := by
  rw [set_eq]
  have hS : BITSET_SEGMENT_SIZE = 16384 := rfl
  exact dir_ok_store h (by rw [hS]; omega)
    (bitset_array.inv_set (getD_fresh_inv h _) (mod_seg_lt i))

theorem dir_ok_unset {s : bitset_segmented} (h : dir_ok s.segments) (i : Nat) :
    dir_ok (s.unset i).1.segments := by
  cases hf : seg_find s.segments (i / BITSET_SEGMENT_SIZE) with
  | none =>
    have : s.get i = false := by unfold get; simp only [hf]
    rw [unset_of_not_get s i this]; exact h
  | some a =>
    cases ht : a.test (i % BITSET_SEGMENT_SIZE)
    · have : s.get i = false := by unfold get; simp only [hf]; exact ht
      rw [unset_of_not_get s i this]; exact h
    · rw [unset_of_get s i hf ht]
      obtain ⟨hk, hinv⟩ := h.2 _ _ hf
      exact dir_ok_store h hk (bitset_array.inv_unset hinv (mod_seg_lt i))

theorem dir_ok_reserve_call {s : bitset_segmented} (h : dir_ok s.segments) (m : Nat) :
    dir_ok (s.reserve_for_max_index m).segments := by
  rw [reserve_segments]
  apply dir_ok_reserve _ _ h
  intro i hi
  have hi2 := List.mem_range.mp hi
  have hS : BITSET_SEGMENT_SIZE = 16384 := rfl
  simp only [wrap, hS] at hi2
  omega

end bitset_segmented

/-! ## Preservation of the extrema invariants -/

namespace bitset_segmented

theorem set_head_index (s : bitset_segmented) (i : Nat) :
    (s.set i).head_index =
      if ((seg_find s.segments (i / BITSET_SEGMENT_SIZE)).getD bitset_array.fresh).count = 0 then
        if s.head_index > i then (s.set i).segments.foldl head_step SIZE_MAX else s.head_index
      else min s.head_index i := by
  rw [set_eq]

theorem set_tail_index (s : bitset_segmented) (i : Nat) :
    (s.set i).tail_index =
      if ((seg_find s.segments (i / BITSET_SEGMENT_SIZE)).getD bitset_array.fresh).count = 0 then
        if s.tail_index < wrap (i + 1) then (s.set i).segments.foldl tail_step 0 else s.tail_index
      else max s.tail_index (wrap (i + 1)) := by
  rw [set_eq]

theorem get_true_find {s : bitset_segmented} {i : Nat} (h : s.get i = true) :
    ∃ a, seg_find s.segments (i / BITSET_SEGMENT_SIZE) = some a ∧
      a.test (i % BITSET_SEGMENT_SIZE) = true := by
  unfold get at h
  simp only [] at h
  cases hf : seg_find s.segments (i / BITSET_SEGMENT_SIZE) with
  | none => rw [hf] at h; exact Bool.noConfusion h
  | some a => rw [hf] at h; exact ⟨a, rfl, h⟩

theorem unset_head_index {s : bitset_segmented} {i : Nat} (h : s.get i = true) :
    (s.unset i).1.head_index =
      if i = s.head_index then (s.unset i).1.segments.foldl head_step SIZE_MAX
      else s.head_index := by
  obtain ⟨a, hf, ht⟩ := get_true_find h
  rw [unset_of_get s i hf ht]

theorem unset_tail_index {s : bitset_segmented} {i : Nat} (h : s.get i = true) :
    (s.unset i).1.tail_index =
      if wrap (i + 1) = s.tail_index then (s.unset i).1.segments.foldl tail_step 0
      else s.tail_index := by
  obtain ⟨a, hf, ht⟩ := get_true_find h
  rw [unset_of_get s i hf ht]

theorem head_ok_of_rescan {t : bitset_segmented} (h : dir_ok t.segments)
    (hh : t.head_index = t.segments.foldl head_step SIZE_MAX) : head_ok t := by
  have := update_head_from_ok t h
  unfold head_ok at this ⊢
  rw [hh]
  exact this

theorem tail_ok_of_rescan {t : bitset_segmented} (h : dir_ok t.segments)
    (hmax : t.get SIZE_MAX = false)
    (hh : t.tail_index = t.segments.foldl tail_step 0) : tail_ok t := by
  have := update_tail_from_ok t h hmax
  unfold tail_ok at this ⊢
  rw [hh]
  exact this

theorem head_ok_set {s : bitset_segmented} (h : dir_ok s.segments) (hh : head_ok s) {i : Nat}
    (hi : i < 18446744073709551616) : head_ok (s.set i) := by
  have hd := dir_ok_set h hi
  have hg := get_set (dir_wf_of_ok h) i
  have hx := set_head_index s i
  by_cases hc : ((seg_find s.segments (i / BITSET_SEGMENT_SIZE)).getD bitset_array.fresh).count = 0
  · rw [if_pos hc] at hx
    by_cases hlt : s.head_index > i
    · rw [if_pos hlt] at hx
      exact head_ok_of_rescan hd hx
    · rw [if_neg hlt] at hx
      unfold head_ok
      rw [hx]
      refine ⟨?_, ?_⟩
      · intro j hj
        rw [hg] at hj
        cases hsj : s.get j
        · rw [hsj] at hj
          have : j = i := by simpa using hj
          omega
        · exact hh.1 j hsj
      · rcases hh.2 with h2 | h2
        · exact Or.inl h2
        · right; rw [hg, h2]; rfl
  · rw [if_neg hc] at hx
    unfold head_ok
    rw [hx]
    refine ⟨?_, ?_⟩
    · intro j hj
      rw [hg] at hj
      cases hsj : s.get j
      · rw [hsj] at hj
        have : j = i := by simpa using hj
        rw [this]; exact Nat.min_le_right _ _
      · exact Nat.le_trans (Nat.min_le_left _ _) (hh.1 j hsj)
    · by_cases hle : s.head_index ≤ i
      · rw [Nat.min_eq_left hle]
        rcases hh.2 with h2 | h2
        · exact Or.inl h2
        · right; rw [hg, h2]; rfl
      · rw [Nat.min_eq_right (by omega)]
        right; rw [hg]; simp

theorem head_ok_unset {s : bitset_segmented} (h : dir_ok s.segments) (hh : head_ok s) (i : Nat) :
    head_ok (s.unset i).1 := by
  cases hgi : s.get i
  · rw [unset_of_not_get s i hgi]; exact hh
  · have hd := dir_ok_unset h i
    have hg := get_unset (dir_wf_of_ok h) i
    have hx := unset_head_index hgi
    by_cases he : i = s.head_index
    · rw [if_pos he] at hx
      exact head_ok_of_rescan hd hx
    · rw [if_neg he] at hx
      unfold head_ok
      rw [hx]
      refine ⟨?_, ?_⟩
      · intro j hj
        rw [hg] at hj
        cases hsj : s.get j
        · rw [hsj] at hj; exact absurd hj (by simp)
        · exact hh.1 j hsj
      · rcases hh.2 with h2 | h2
        · exact Or.inl h2
        · right
          rw [hg, h2]
          have : ¬ s.head_index = i := fun e => he e.symm
          simp [this]

theorem head_ok_reserve {s : bitset_segmented} (hh : head_ok s) (m : Nat) :
    head_ok (s.reserve_for_max_index m) := by
  unfold head_ok
  simp only [get_reserve, reserve_head]
  exact hh

theorem tail_ok_set {s : bitset_segmented} (h : dir_ok s.segments) (hh : tail_ok s) {i : Nat}
    (hi : i < SIZE_MAX) : tail_ok (s.set i) := by
  have hM : SIZE_MAX = 18446744073709551615 := rfl
  have hd := dir_ok_set h (i := i) (by omega)
  have hg := get_set (dir_wf_of_ok h) i
  have hx := set_tail_index s i
  have hw : wrap (i + 1) = i + 1 := by unfold wrap; omega
  rw [hw] at hx
  obtain ⟨t0, t1, t2⟩ := hh
  have hmax : (s.set i).get SIZE_MAX = false := by
    rw [hg, t0]
    have : ¬ SIZE_MAX = i := by omega
    simp [this]
  by_cases hc : ((seg_find s.segments (i / BITSET_SEGMENT_SIZE)).getD bitset_array.fresh).count = 0
  · rw [if_pos hc] at hx
    by_cases hlt : s.tail_index < i + 1
    · rw [if_pos hlt] at hx
      exact tail_ok_of_rescan hd hmax hx
    · rw [if_neg hlt] at hx
      unfold tail_ok
      rw [hx]
      refine ⟨hmax, ?_, ?_⟩
      · intro j hj
        rw [hg] at hj
        cases hsj : s.get j
        · rw [hsj] at hj
          have : j = i := by simpa using hj
          omega
        · exact t1 j hsj
      · rcases t2 with h2 | h2
        · exact Or.inl h2
        · right; rw [hg, h2]; rfl
  · rw [if_neg hc] at hx
    unfold tail_ok
    rw [hx]
    refine ⟨hmax, ?_, ?_⟩
    · intro j hj
      rw [hg] at hj
      cases hsj : s.get j
      · rw [hsj] at hj
        have : j = i := by simpa using hj
        rw [this]; exact Nat.lt_of_lt_of_le (Nat.lt_succ_self i) (Nat.le_max_right _ _)
      · exact Nat.lt_of_lt_of_le (t1 j hsj) (Nat.le_max_left _ _)
    · by_cases hle : i + 1 ≤ s.tail_index
      · rw [Nat.max_eq_left hle]
        rcases t2 with h2 | h2
        · omega
        · right; rw [hg, h2]; rfl
      · rw [Nat.max_eq_right (by omega)]
        right; rw [hg]; simp

theorem tail_ok_unset {s : bitset_segmented} (h : dir_ok s.segments) (hh : tail_ok s) (i : Nat) :
    tail_ok (s.unset i).1 := by
  cases hgi : s.get i
  · rw [unset_of_not_get s i hgi]; exact hh
  · have hM : SIZE_MAX = 18446744073709551615 := rfl
    have hd := dir_ok_unset h i
    have hg := get_unset (dir_wf_of_ok h) i
    have hx := unset_tail_index hgi
    obtain ⟨t0, t1, t2⟩ := hh
    have hlt : i < 18446744073709551616 := dir_get_lt h hgi
    have hne : i ≠ SIZE_MAX := by intro e; rw [e, t0] at hgi; exact Bool.noConfusion hgi
    have hw : wrap (i + 1) = i + 1 := by unfold wrap; omega
    rw [hw] at hx
    have hmax : (s.unset i).1.get SIZE_MAX = false := by rw [hg, t0]; rfl
    by_cases he : i + 1 = s.tail_index
    · rw [if_pos he] at hx
      exact tail_ok_of_rescan hd hmax hx
    · rw [if_neg he] at hx
      unfold tail_ok
      rw [hx]
      refine ⟨hmax, ?_, ?_⟩
      · intro j hj
        rw [hg] at hj
        cases hsj : s.get j
        · rw [hsj] at hj; exact absurd hj (by simp)
        · exact t1 j hsj
      · rcases t2 with h2 | h2
        · exact Or.inl h2
        · right
          rw [hg, h2]
          have hpos : 0 < s.tail_index := Nat.lt_of_le_of_lt (Nat.zero_le _) (t1 i hgi)
          have : ¬ s.tail_index - 1 = i := by omega
          simp [this]

theorem tail_ok_reserve {s : bitset_segmented} (hh : tail_ok s) (m : Nat) :
    tail_ok (s.reserve_for_max_index m) := by
  unfold tail_ok
  simp only [get_reserve, reserve_tail]
  exact hh

end bitset_segmented

/-! ## Invariants of every reachable state -/

theorem dir_wf_init : dir_wf bitset_segmented.init.segments := by
  intro _ _ h
  exact Option.noConfusion h

theorem dir_ok_init : dir_ok bitset_segmented.init.segments :=
  ⟨List.Pairwise.nil, fun _ _ h => Option.noConfusion h⟩

theorem head_ok_init : head_ok bitset_segmented.init :=
  ⟨fun _ h => Bool.noConfusion h, Or.inl rfl⟩

theorem tail_ok_init : tail_ok bitset_segmented.init :=
  ⟨rfl, fun _ h => Bool.noConfusion h, Or.inl rfl⟩

theorem run_cons (s : bitset_segmented) (op : Op) (ops : List Op) :
    run s (op :: ops) = run (apply_op s op) ops := rfl

theorem run_append (s : bitset_segmented) (ops1 ops2 : List Op) :
    run s (ops1 ++ ops2) = run (run s ops1) ops2 := by
  unfold run; rw [List.foldl_append]

theorem dir_wf_run (ops : List Op) : ∀ (s : bitset_segmented), dir_wf s.segments →
    dir_wf (run s ops).segments := by
  induction ops with
  | nil => intro s h; exact h
  | cons op rest ih =>
    intro s h
    rw [run_cons]
    apply ih
    cases op with
    | set i => exact bitset_segmented.dir_wf_set h i
    | unset i => exact bitset_segmented.dir_wf_unset h i
    | reserve m => exact bitset_segmented.dir_wf_reserve_call h m

theorem base_inv_run (ops : List Op) : ∀ (s : bitset_segmented), valid_ops ops →
    dir_ok s.segments → head_ok s → dir_ok (run s ops).segments ∧ head_ok (run s ops) := by
  induction ops with
  | nil => intro s _ h1 h2; exact ⟨h1, h2⟩
  | cons op rest ih =>
    intro s hv h1 h2
    rw [run_cons]
    have hv1 : op.arg < 18446744073709551616 := hv op (List.mem_cons_self _ _)
    have hv2 : valid_ops rest := fun o ho => hv o (List.mem_cons_of_mem _ ho)
    cases op with
    | set i =>
      exact ih _ hv2 (bitset_segmented.dir_ok_set h1 hv1) (bitset_segmented.head_ok_set h1 h2 hv1)
    | unset i =>
      exact ih _ hv2 (bitset_segmented.dir_ok_unset h1 i) (bitset_segmented.head_ok_unset h1 h2 i)
    | reserve m =>
      exact ih _ hv2 (bitset_segmented.dir_ok_reserve_call h1 m)
        (bitset_segmented.head_ok_reserve h2 m)

theorem valid_of_below_max {ops : List Op} (h : below_max ops) : valid_ops ops := by
  intro op hop
  have := h op hop
  have hM : SIZE_MAX = 18446744073709551615 := rfl
  omega

theorem tail_inv_run (ops : List Op) : ∀ (s : bitset_segmented), below_max ops →
    dir_ok s.segments → tail_ok s → tail_ok (run s ops) := by
  induction ops with
  | nil => intro s _ _ h2; exact h2
  | cons op rest ih =>
    intro s hv h1 h2
    rw [run_cons]
    have hv1 : op.arg < SIZE_MAX := hv op (List.mem_cons_self _ _)
    have hv2 : below_max rest := fun o ho => hv o (List.mem_cons_of_mem _ ho)
    have hM : SIZE_MAX = 18446744073709551615 := rfl
    cases op with
    | set i =>
      exact ih _ hv2 (bitset_segmented.dir_ok_set h1 (i := i) (by have : i < SIZE_MAX := hv1; omega))
        (bitset_segmented.tail_ok_set h1 h2 hv1)
    | unset i =>
      exact ih _ hv2 (bitset_segmented.dir_ok_unset h1 i) (bitset_segmented.tail_ok_unset h1 h2 i)
    | reserve m =>
      exact ih _ hv2 (bitset_segmented.dir_ok_reserve_call h1 m)
        (bitset_segmented.tail_ok_reserve h2 m)

/-! ## The claims -/

open bitset_segmented

theorem run_snoc (s : bitset_segmented) (ops : List Op) (op : Op) :
    run s (ops ++ [op]) = apply_op (run s ops) op := by
  rw [run_append]; rfl

theorem last_call_on_snoc (ops : List Op) (op : Op) (i : Nat) :
    last_call_on (ops ++ [op]) i =
      if (op == Op.set i || op == Op.unset i) = true then some op else last_call_on ops i := by
  unfold last_call_on
  rw [List.reverse_append, List.reverse_singleton, List.singleton_append, List.find?_cons]
  cases h : (op == Op.set i || op == Op.unset i) <;> simp

/-- C1 (membership correctness): after any sequence of `set`, `unset` and
`reserve_for_max_index` calls on a newly constructed bitset, `get(i)` is true exactly when the
last `set(i)`/`unset(i)` call of the sequence is a `set`; it is false when there is no such
call, in particular when the segment of `i` was never created.  The indices range over all
natural numbers, hence over every value of the 64-bit index type. -/
theorem membership_correct (ops : List Op) (i : Nat) :
    (run init ops).get i = set_not_unset ops i := by
  induction ops using List.reverseRecOn with
  | nil => rfl
  | append_singleton ops op ih =>
    have hwf := dir_wf_run ops init dir_wf_init
    unfold set_not_unset at ih ⊢
    rw [run_snoc, last_call_on_snoc]
    cases op with
    | set j =>
      show ((run init ops).set j).get i = _
      rw [get_set hwf, ih]
      by_cases hji : i = j
      · subst hji; simp
      · have : ¬ j = i := fun e => hji e.symm
        simp [hji, this]
    | unset j =>
      show ((run init ops).unset j).1.get i = _
      rw [get_unset hwf, ih]
      by_cases hji : i = j
      · subst hji; simp
      · have : ¬ j = i := fun e => hji e.symm
        simp [hji, this]
    | reserve m =>
      show ((run init ops).reserve_for_max_index m).get i = _
      rw [get_reserve, ih]
      simp

/-- C2 (extrema bound): in every state reached from a newly constructed bitset by calls whose
arguments are all below the largest value of the index type, if `empty()` is false then every
set index `i` satisfies `head() <= i < tail()`, and `head()` and `tail() - 1` are set. -/
theorem extrema_bound (ops : List Op) (hb : below_max ops)
    (hne : (run init ops).empty = false) :
    (∀ i, (run init ops).get i = true → (run init ops).head ≤ i ∧ i < (run init ops).tail) ∧
    (run init ops).get (run init ops).head = true ∧
    (run init ops).get ((run init ops).tail - 1) = true := by
  obtain ⟨hd, hh⟩ := base_inv_run ops init (valid_of_below_max hb) dir_ok_init head_ok_init
  obtain ⟨t0, t1, t2⟩ := tail_inv_run ops init hb dir_ok_init tail_ok_init
  have e1 : (run init ops).head = (run init ops).head_index := by
    unfold head; rw [hne]; rfl
  have e2 : (run init ops).tail = (run init ops).tail_index := by
    unfold tail; rw [hne]; rfl
  have hnm : (run init ops).head_index ≠ SIZE_MAX := by
    intro e
    unfold empty at hne
    rw [e] at hne
    exact absurd hne (by decide)
  have hget : (run init ops).get (run init ops).head_index = true := by
    rcases hh.2 with h | h
    · exact absurd h hnm
    · exact h
  rw [e1, e2]
  refine ⟨fun i hi => ⟨hh.1 i hi, t1 i hi⟩, hget, ?_⟩
  rcases t2 with h | h
  · have := t1 _ hget
    omega
  · exact h

/-- Witness of C2 on the sequence `set(10); set(50000); set(3); unset(3)`. -/
theorem extrema_bound_witness :
    below_max [Op.set 10, Op.set 50000, Op.set 3, Op.unset 3] ∧
    (run init [Op.set 10, Op.set 50000, Op.set 3, Op.unset 3]).empty = false ∧
    ((∀ i, (run init [Op.set 10, Op.set 50000, Op.set 3, Op.unset 3]).get i = true →
        (run init [Op.set 10, Op.set 50000, Op.set 3, Op.unset 3]).head ≤ i ∧
        i < (run init [Op.set 10, Op.set 50000, Op.set 3, Op.unset 3]).tail) ∧
      (run init [Op.set 10, Op.set 50000, Op.set 3, Op.unset 3]).get
        (run init [Op.set 10, Op.set 50000, Op.set 3, Op.unset 3]).head = true ∧
      (run init [Op.set 10, Op.set 50000, Op.set 3, Op.unset 3]).get
        ((run init [Op.set 10, Op.set 50000, Op.set 3, Op.unset 3]).tail - 1) = true) :=
  ⟨by unfold below_max; decide, by decide,
    extrema_bound [Op.set 10, Op.set 50000, Op.set 3, Op.unset 3]
      (by unfold below_max; decide) (by decide)⟩

/-- C3, counterexample: after `set(SIZE_MAX)` on a newly constructed bitset the index
`SIZE_MAX` is set, yet `empty()` is true, and `head()` and `tail()` are 0. -/
theorem empty_with_max_index_set :
    (run init [Op.set SIZE_MAX]).get SIZE_MAX = true ∧
    (run init [Op.set SIZE_MAX]).empty = true ∧
    (run init [Op.set SIZE_MAX]).head = 0 ∧ (run init [Op.set SIZE_MAX]).tail = 0 := by
  decide

/-- C3, amended: in every state reached from a newly constructed bitset by calls with 64-bit
arguments, `empty()` is true exactly when no index below `SIZE_MAX` is set; hence, when the
index `SIZE_MAX` is not set, `empty()` is true exactly when no index is set. -/
theorem empty_iff_no_bit_below_max (ops : List Op) (hv : valid_ops ops) :
    ((run init ops).empty = true ↔ ∀ i, i < SIZE_MAX → (run init ops).get i = false) ∧
    ((run init ops).get SIZE_MAX = false →
      ((run init ops).empty = true ↔ ∀ i, (run init ops).get i = false)) := by
  obtain ⟨hd, hh⟩ := base_inv_run ops init hv dir_ok_init head_ok_init
  have hM : SIZE_MAX = 18446744073709551615 := rfl
  have key : (run init ops).empty = true ↔
      ∀ i, i < SIZE_MAX → (run init ops).get i = false := by
    unfold empty
    constructor
    · intro he i hi
      have he2 : (run init ops).head_index = SIZE_MAX := by simpa using he
      cases hg : (run init ops).get i
      · rfl
      · have := hh.1 i hg
        omega
    · intro hall
      rcases hh.2 with h | h
      · rw [h]; exact beq_self_eq_true _
      · have hlt := dir_get_lt hd h
        by_cases hm : (run init ops).head_index = SIZE_MAX
        · rw [hm]; exact beq_self_eq_true _
        · rw [hall _ (by omega)] at h
          exact Bool.noConfusion h
  refine ⟨key, fun hmax => ?_⟩
  rw [key]
  constructor
  · intro hall i
    cases hg : (run init ops).get i
    · rfl
    · have hlt := dir_get_lt hd hg
      by_cases hi : i < SIZE_MAX
      · rw [hall i hi] at hg; exact Bool.noConfusion hg
      · have : i = SIZE_MAX := by omega
        rw [this, hmax] at hg; exact Bool.noConfusion hg
  · intro hall i _
    exact hall i

/-- Witness of the amended C3 on the sequence `set(7); unset(7); reserve_for_max_index(9)`. -/
theorem empty_iff_no_bit_below_max_witness :
    valid_ops [Op.set 7, Op.unset 7, Op.reserve 9] ∧
    (((run init [Op.set 7, Op.unset 7, Op.reserve 9]).empty = true ↔
      ∀ i, i < SIZE_MAX → (run init [Op.set 7, Op.unset 7, Op.reserve 9]).get i = false) ∧
    ((run init [Op.set 7, Op.unset 7, Op.reserve 9]).get SIZE_MAX = false →
      ((run init [Op.set 7, Op.unset 7, Op.reserve 9]).empty = true ↔
        ∀ i, (run init [Op.set 7, Op.unset 7, Op.reserve 9]).get i = false))) :=
  ⟨by unfold valid_ops; decide,
    empty_iff_no_bit_below_max [Op.set 7, Op.unset 7, Op.reserve 9]
      (by unfold valid_ops; decide)⟩

theorem set_tail_ge {s : bitset_segmented} (h : dir_ok s.segments) (i : Nat) :
    wrap (i + 1) ≤ (s.set i).tail_index := by
  rw [set_tail_index]
  by_cases hc : ((seg_find s.segments (i / BITSET_SEGMENT_SIZE)).getD bitset_array.fresh).count = 0
  · rw [if_pos hc]
    by_cases hlt : s.tail_index < wrap (i + 1)
    · rw [if_pos hlt]
      obtain ⟨hwf, hcp, hz, _⟩ := getD_fresh_inv h (i / BITSET_SEGMENT_SIZE)
      have hnt : ((seg_find s.segments (i / BITSET_SEGMENT_SIZE)).getD bitset_array.fresh).test
          (i % BITSET_SEGMENT_SIZE) = false :=
        bitset_array.popcount_eq_zero hwf (by rw [← hcp]; exact hc) _
      have hfind : seg_find (s.set i).segments (i / BITSET_SEGMENT_SIZE) =
          some (((seg_find s.segments (i / BITSET_SEGMENT_SIZE)).getD bitset_array.fresh).set
            (i % BITSET_SEGMENT_SIZE)) := by
        rw [set_eq, seg_find_store, if_pos rfl]
      obtain ⟨_, f2, _⟩ := foldl_tail_step_spec (s.set i).segments 0
      have hS : BITSET_SEGMENT_SIZE = 16384 := rfl
      have hcnt : (((seg_find s.segments (i / BITSET_SEGMENT_SIZE)).getD bitset_array.fresh).set
            (i % BITSET_SEGMENT_SIZE)).count ≠ 0 := by
        rw [bitset_array.set_count, hnt, hc]; decide
      have hlm : (((seg_find s.segments (i / BITSET_SEGMENT_SIZE)).getD bitset_array.fresh).set
            (i % BITSET_SEGMENT_SIZE)).local_max = i % BITSET_SEGMENT_SIZE := by
        rw [bitset_array.set_of_not_test hnt]
        show max _ _ = _
        rw [(hz hc).2]
        exact Nat.max_eq_right (Nat.zero_le _)
      have := f2 _ (mem_of_seg_find hfind) hcnt
      simp only [hlm] at this
      have e : i / BITSET_SEGMENT_SIZE * BITSET_SEGMENT_SIZE + i % BITSET_SEGMENT_SIZE = i :=
        Nat.div_add_mod' i BITSET_SEGMENT_SIZE
      rw [e] at this
      exact this
    · rw [if_neg hlt]; omega
  · rw [if_neg hc]; exact Nat.le_max_right _ _

/-- C4 (`set` is idempotent): for every state reached by calls with 64-bit arguments and every
64-bit index `i`, the state after `set(i); set(i)` equals the state after one `set(i)`: the
same directory with the same segments, and the same `head_index` and `tail_index`. -/
theorem set_idempotent (ops : List Op) (hv : valid_ops ops) (i : Nat)
    (hi : i < 18446744073709551616) :
    ((run init ops).set i).set i = (run init ops).set i := by
  obtain ⟨hd, hh⟩ := base_inv_run ops init hv dir_ok_init head_ok_init
  have hd1 := dir_ok_set hd hi
  have hh1 := head_ok_set hd hh hi
  have hg : ((run init ops).set i).get i = true := by
    rw [get_set (dir_wf_of_ok hd)]; simp
  obtain ⟨a, hf, hc, ht, _, _, _⟩ := dir_get_true hd1 hg
  have hle := hh1.1 i hg
  have hge := set_tail_ge hd i
  generalize (run init ops).set i = t at hd1 hh1 hg hf hle hge
  rw [set_eq t i, hf]
  simp only [Option.getD_some, if_neg hc]
  rw [bitset_array.set_of_test ht, seg_store_same hd1.1 hf, Nat.min_eq_left hle,
    Nat.max_eq_left hge]

/-- Witness of C4 on the state after `set(10); set(50000); unset(10)` and the index 20000. -/
theorem set_idempotent_witness :
    valid_ops [Op.set 10, Op.set 50000, Op.unset 10] ∧ 20000 < 18446744073709551616 ∧
    ((run init [Op.set 10, Op.set 50000, Op.unset 10]).set 20000).set 20000 =
      (run init [Op.set 10, Op.set 50000, Op.unset 10]).set 20000 :=
  ⟨by unfold valid_ops; decide, by decide,
    set_idempotent [Op.set 10, Op.set 50000, Op.unset 10] (by unfold valid_ops; decide) 20000
      (by decide)⟩

/-- C5 (`unset` reports whether it removed the index): in every state, `unset(i)` returns true
exactly when `get(i)` was true before the call; it returns false when the segment of `i` does
not exist and when the bit of `i` is clear. -/
theorem unset_reports_removal (s : bitset_segmented) (i : Nat) :
    ((s.unset i).2 = true ↔ s.get i = true) ∧
    (seg_find s.segments (i / BITSET_SEGMENT_SIZE) = none → (s.unset i).2 = false) ∧
    (∀ a, seg_find s.segments (i / BITSET_SEGMENT_SIZE) = some a →
      a.test (i % BITSET_SEGMENT_SIZE) = false → (s.unset i).2 = false) := by
  refine ⟨by rw [unset_snd], ?_, ?_⟩
  · intro hf
    rw [unset_snd]; unfold bitset_segmented.get; simp only [hf]
  · intro a hf ht
    rw [unset_snd]; unfold bitset_segmented.get; simp only [hf]; exact ht

/-- C6 (`unset` of an absent index changes nothing): in every state reached from a newly
constructed bitset, `unset(i)` of an index that is not set returns false and leaves the whole
state as it was; and a second `unset(i)` directly after an `unset(i)` returns false and
changes nothing. -/
theorem unset_absent_noop (ops : List Op) (i : Nat) :
    ((run init ops).get i = false → (run init ops).unset i = (run init ops, false)) ∧
    ((run init ops).unset i).1.unset i = (((run init ops).unset i).1, false) := by
  refine ⟨unset_of_not_get _ i, ?_⟩
  apply unset_of_not_get
  rw [get_unset (dir_wf_run ops init dir_wf_init)]
  simp

/-- Witness of C6 on the state after `set(5); set(40000)`: the absent index 6, and the index
5 removed twice. -/
theorem unset_absent_noop_witness :
    (run init [Op.set 5, Op.set 40000]).get 6 = false ∧
    (run init [Op.set 5, Op.set 40000]).unset 6 = (run init [Op.set 5, Op.set 40000], false) ∧
    ((run init [Op.set 5, Op.set 40000]).unset 5).1.unset 5 =
      (((run init [Op.set 5, Op.set 40000]).unset 5).1, false) :=
  ⟨by decide, (unset_absent_noop [Op.set 5, Op.set 40000] 6).1 (by decide),
    (unset_absent_noop [Op.set 5, Op.set 40000] 5).2⟩

/-- C7 (round trip): for every state reached by calls with 64-bit arguments and every 64-bit
index `i`, after `set(i)` followed by `unset(i)`, `get(i)` is false; and if no index other
than `i` was set, `empty()` is true and `head()` and `tail()` return 0. -/
theorem round_trip (ops : List Op) (hv : valid_ops ops) (i : Nat)
    (hi : i < 18446744073709551616) :
    (((run init ops).set i).unset i).1.get i = false ∧
    ((∀ j, j ≠ i → (run init ops).get j = false) →
      (((run init ops).set i).unset i).1.empty = true ∧
      (((run init ops).set i).unset i).1.head = 0 ∧
      (((run init ops).set i).unset i).1.tail = 0) := by
  obtain ⟨hd, hh⟩ := base_inv_run ops init hv dir_ok_init head_ok_init
  have hd1 := dir_ok_set hd hi
  have hh1 := head_ok_set hd hh hi
  have hh2 := head_ok_unset hd1 hh1 i
  have hg : ∀ j, (((run init ops).set i).unset i).1.get j =
      (((run init ops).get j || decide (j = i)) && !decide (j = i)) := by
    intro j
    rw [get_unset (dir_wf_of_ok hd1), get_set (dir_wf_of_ok hd)]
  refine ⟨by rw [hg]; simp, ?_⟩
  intro hno
  have hall : ∀ j, (((run init ops).set i).unset i).1.get j = false := by
    intro j
    rw [hg]
    by_cases hji : j = i
    · simp [hji]
    · rw [hno j hji]; simp [hji]
  have he : (((run init ops).set i).unset i).1.empty = true := by
    unfold empty
    rcases hh2.2 with h | h
    · rw [h]; exact beq_self_eq_true _
    · rw [hall] at h; exact Bool.noConfusion h
  refine ⟨he, ?_, ?_⟩
  · unfold head; rw [he]; rfl
  · unfold tail; rw [he]; rfl

/-- Witness of C7 on the state after `set(9); unset(9); reserve_for_max_index(100)` and the
index 70000. -/
theorem round_trip_witness :
    valid_ops [Op.set 9, Op.unset 9, Op.reserve 100] ∧ 70000 < 18446744073709551616 ∧
    (((run init [Op.set 9, Op.unset 9, Op.reserve 100]).set 70000).unset 70000).1.get 70000
      = false ∧
    ((∀ j, j ≠ 70000 → (run init [Op.set 9, Op.unset 9, Op.reserve 100]).get j = false) →
      (((run init [Op.set 9, Op.unset 9, Op.reserve 100]).set 70000).unset 70000).1.empty
        = true ∧
      (((run init [Op.set 9, Op.unset 9, Op.reserve 100]).set 70000).unset 70000).1.head = 0 ∧
      (((run init [Op.set 9, Op.unset 9, Op.reserve 100]).set 70000).unset 70000).1.tail = 0) :=
  ⟨by unfold valid_ops; decide, by decide,
    round_trip [Op.set 9, Op.unset 9, Op.reserve 100] (by unfold valid_ops; decide) 70000
      (by decide)⟩

/-- C8 (a newly constructed bitset is empty): `empty()` is true, `head()` and `tail()` return
0 and `get(i)` is false for every `i`; and in every state `head()` returns 0 if `empty()` is
true and `head_index` otherwise, and `tail()` returns 0 if `empty()` is true and `tail_index`
otherwise. -/
theorem init_is_empty :
    init.empty = true ∧ init.head = 0 ∧ init.tail = 0 ∧ (∀ i, init.get i = false) ∧
    (∀ s : bitset_segmented, (s.empty = true → s.head = 0 ∧ s.tail = 0) ∧
      (s.empty = false → s.head = s.head_index ∧ s.tail = s.tail_index)) := by
  refine ⟨rfl, rfl, rfl, fun i => rfl, fun s => ⟨?_, ?_⟩⟩
  · intro h; unfold head tail; rw [h]; exact ⟨rfl, rfl⟩
  · intro h; unfold head tail; rw [h]; exact ⟨rfl, rfl⟩

/-! ### Reservation -/

theorem seg_find_reserve_isSome (l : List Nat) : ∀ (m : List (Nat × bitset_array)) (k : Nat),
    (seg_find (l.foldl reserve_step m) k).isSome = ((seg_find m k).isSome || decide (k ∈ l)) := by
  induction l with
  | nil => intro m k; simp
  | cons x xs ih =>
    intro m k
    rw [List.foldl_cons, ih, seg_find_reserve_step]
    cases hk : seg_find m k with
    | some a => simp
    | none =>
      by_cases hx : x = k
      · subst hx; simp
      · have : ¬ k = x := fun e => hx e.symm
        simp [hx, this]

/-- What the reservation does create: when `max_index + 16383` does not wrap, the segment of
every index strictly below `max_index` is present afterwards. -/
theorem reserve_covers_below (s : bitset_segmented) (m : Nat)
    (hm : m + 16383 < 18446744073709551616) (i : Nat) (hi : i < m) :
    (seg_find (s.reserve_for_max_index m).segments (i / BITSET_SEGMENT_SIZE)).isSome = true := by
  rw [reserve_segments, seg_find_reserve_isSome]
  have hS : BITSET_SEGMENT_SIZE = 16384 := rfl
  have : i / BITSET_SEGMENT_SIZE <
      wrap (m + BITSET_SEGMENT_SIZE - 1) / BITSET_SEGMENT_SIZE := by
    simp only [wrap, hS]; omega
  simp [List.mem_range, this]

/-- C9, the code at the failing inputs: on a newly constructed bitset,
`reserve_for_max_index(16384)` creates segment 0 only, so the segment of the index 16384 is
absent; `reserve_for_max_index(0)` creates no segment, so the segment of the index 0 is
absent; and for `max_index = SIZE_MAX` the sum `max_index + 16383` wraps and no segment is
created either. -/
theorem reserve_misses_max_index :
    seg_find (init.reserve_for_max_index 16384).segments (16384 / BITSET_SEGMENT_SIZE) = none ∧
    (init.reserve_for_max_index 16384).segments.map Prod.fst = [0] ∧
    seg_find (init.reserve_for_max_index 0).segments (0 / BITSET_SEGMENT_SIZE) = none ∧
    (init.reserve_for_max_index SIZE_MAX).segments = [] := by
  decide

theorem seg_find_reserve_some (l : List Nat) : ∀ (m : List (Nat × bitset_array)) (k : Nat)
    (a : bitset_array), seg_find m k = some a → seg_find (l.foldl reserve_step m) k = some a := by
  induction l with
  | nil => intro m k a h; exact h
  | cons x xs ih =>
    intro m k a h
    rw [List.foldl_cons]
    apply ih
    rw [seg_find_reserve_step, h]

theorem keys_sorted_reserve_step {m : List (Nat × bitset_array)} (h : keys_sorted m) (i : Nat) :
    keys_sorted (reserve_step m i) := by
  unfold reserve_step
  cases seg_find m i with
  | some b => exact h
  | none => exact keys_sorted_store h i _

theorem dir_more_refl {m : List (Nat × bitset_array)} (h : keys_sorted m) : dir_more m m :=
  ⟨h, h, fun _ => Or.inl rfl⟩

theorem dir_more_getD {m n : List (Nat × bitset_array)} (h : dir_more m n) (k : Nat) :
    (seg_find n k).getD bitset_array.fresh = (seg_find m k).getD bitset_array.fresh := by
  rcases h.2.2 k with e | ⟨e1, e2⟩
  · rw [e]
  · rw [e1, e2]; rfl

theorem dir_more_get {m n : List (Nat × bitset_array)} (h : dir_more m n) (j : Nat) :
    dir_get n j = dir_get m j := by
  rw [← getD_fresh_test, ← getD_fresh_test, dir_more_getD h]

theorem dir_more_store {m n : List (Nat × bitset_array)} (h : dir_more m n) (k : Nat)
    (v : bitset_array) : dir_more (seg_store m k v) (seg_store n k v) := by
  refine ⟨keys_sorted_store h.1 k v, keys_sorted_store h.2.1 k v, ?_⟩
  intro j
  rw [seg_find_store, seg_find_store]
  by_cases hk : k = j
  · rw [if_pos hk, if_pos hk]; exact Or.inl rfl
  · rw [if_neg hk, if_neg hk]; exact h.2.2 j

theorem dir_more_reserve_step {m n : List (Nat × bitset_array)} (h : dir_more m n) (i : Nat) :
    dir_more m (reserve_step n i) := by
  refine ⟨h.1, keys_sorted_reserve_step h.2.1 i, ?_⟩
  intro k
  rw [seg_find_reserve_step]
  cases hn : seg_find n k with
  | some a =>
    simp only []
    rcases h.2.2 k with e | ⟨e1, e2⟩
    · left; rw [← e, hn]
    · right; rw [hn] at e2; exact ⟨e1, e2⟩
  | none =>
    simp only []
    have hm : seg_find m k = none := by
      rcases h.2.2 k with e | ⟨e1, _⟩
      · rw [← e, hn]
      · exact e1
    by_cases hik : i = k
    · rw [if_pos hik]; exact Or.inr ⟨hm, rfl⟩
    · rw [if_neg hik]; exact Or.inl hm.symm

theorem dir_more_reserve (l : List Nat) : ∀ {m n : List (Nat × bitset_array)}, dir_more m n →
    dir_more m (l.foldl reserve_step n) := by
  induction l with
  | nil => intro m n h; exact h
  | cons x xs ih =>
    intro m n h
    rw [List.foldl_cons]
    exact ih (dir_more_reserve_step h x)

/-- The segments with bits are the same in both directories. -/
theorem dir_more_live {m n : List (Nat × bitset_array)} (h : dir_more m n)
    (p : Nat × bitset_array) (hc : p.2.count ≠ 0) : p ∈ m ↔ p ∈ n := by
  obtain ⟨k, a⟩ := p
  constructor
  · intro hp
    have hf := seg_find_of_mem h.1 hp
    apply mem_of_seg_find
    rcases h.2.2 k with e | ⟨e1, _⟩
    · rw [e]; exact hf
    · rw [hf] at e1; exact Option.noConfusion e1
  · intro hp
    have hf := seg_find_of_mem h.2.1 hp
    apply mem_of_seg_find
    rcases h.2.2 k with e | ⟨_, e2⟩
    · rw [← e]; exact hf
    · rw [hf] at e2
      injection e2 with e2
      rw [e2] at hc
      exact absurd rfl hc

theorem dir_more_head {m n : List (Nat × bitset_array)} (h : dir_more m n) :
    n.foldl head_step SIZE_MAX = m.foldl head_step SIZE_MAX := by
  obtain ⟨a1, a2, a3⟩ := foldl_head_step_spec m SIZE_MAX
  obtain ⟨b1, b2, b3⟩ := foldl_head_step_spec n SIZE_MAX
  apply Nat.le_antisymm
  · rcases a3 with a3 | ⟨p, hp, hc, he⟩
    · rw [a3]; exact b1
    · rw [he]; exact b2 p ((dir_more_live h p hc).mp hp) hc
  · rcases b3 with b3 | ⟨p, hp, hc, he⟩
    · rw [b3]; exact a1
    · rw [he]; exact a2 p ((dir_more_live h p hc).mpr hp) hc

theorem dir_more_tail {m n : List (Nat × bitset_array)} (h : dir_more m n) :
    n.foldl tail_step 0 = m.foldl tail_step 0 := by
  obtain ⟨a1, a2, a3⟩ := foldl_tail_step_spec m 0
  obtain ⟨b1, b2, b3⟩ := foldl_tail_step_spec n 0
  apply Nat.le_antisymm
  · rcases b3 with b3 | ⟨p, hp, hc, he⟩
    · rw [b3]; exact a1
    · rw [he]; exact a2 p ((dir_more_live h p hc).mpr hp) hc
  · rcases a3 with a3 | ⟨p, hp, hc, he⟩
    · rw [a3]; exact b1
    · rw [he]; exact b2 p ((dir_more_live h p hc).mp hp) hc

theorem reserved_more_get {s t : bitset_segmented} (h : reserved_more s t) (j : Nat) :
    t.get j = s.get j := dir_more_get h.1 j

theorem reserved_more_set {s t : bitset_segmented} (h : reserved_more s t) (i : Nat) :
    reserved_more (s.set i) (t.set i) := by
  obtain ⟨hm, hh, ht⟩ := h
  have hst := dir_more_store hm (i / BITSET_SEGMENT_SIZE)
    (((seg_find s.segments (i / BITSET_SEGMENT_SIZE)).getD bitset_array.fresh).set
      (i % BITSET_SEGMENT_SIZE))
  rw [set_eq s i, set_eq t i, dir_more_getD hm, ← hh, ← ht]
  exact ⟨hst, by simp only [dir_more_head hst], by simp only [dir_more_tail hst]⟩

theorem reserved_more_unset {s t : bitset_segmented} (h : reserved_more s t) (i : Nat) :
    reserved_more (s.unset i).1 (t.unset i).1 ∧ (t.unset i).2 = (s.unset i).2 := by
  have hg := reserved_more_get h i
  refine ⟨?_, by rw [unset_snd, unset_snd, hg]⟩
  cases hs : s.get i
  · rw [hs] at hg
    rw [unset_of_not_get s i hs, unset_of_not_get t i hg]
    exact h
  · obtain ⟨hm, hh, ht⟩ := h
    obtain ⟨a, hf, hta⟩ := get_true_find hs
    have hft : seg_find t.segments (i / BITSET_SEGMENT_SIZE) = some a := by
      rcases hm.2.2 (i / BITSET_SEGMENT_SIZE) with e | ⟨e1, _⟩
      · rw [e]; exact hf
      · rw [hf] at e1; exact Option.noConfusion e1
    have hst := dir_more_store hm (i / BITSET_SEGMENT_SIZE) (a.unset (i % BITSET_SEGMENT_SIZE))
    rw [unset_of_get s i hf hta, unset_of_get t i hft hta, ← hh, ← ht]
    exact ⟨hst, by simp only [dir_more_head hst], by simp only [dir_more_tail hst]⟩

theorem reserved_more_reserve {s t : bitset_segmented} (h : reserved_more s t) (m : Nat) :
    reserved_more s (t.reserve_for_max_index m) :=
  ⟨dir_more_reserve _ h.1, h.2.1, h.2.2⟩

theorem reserved_more_head {s t : bitset_segmented} (h : reserved_more s t) :
    t.empty = s.empty ∧ t.head = s.head ∧ t.tail = s.tail := by
  obtain ⟨_, hh, ht⟩ := h
  unfold head tail empty
  rw [hh, ht]
  exact ⟨rfl, rfl, rfl⟩

theorem returns_reserved_more (cs : List Call) : ∀ (s t : bitset_segmented),
    reserved_more s t → returns t cs = returns s (cs.filter (fun c => !is_reserve c)) := by
  induction cs with
  | nil => intro s t _; rfl
  | cons c cs ih =>
    intro s t h
    obtain ⟨e1, e2, e3⟩ := reserved_more_head h
    cases c with
    | reserve m => exact ih s _ (reserved_more_reserve h m)
    | set i =>
      show Ret.void :: returns (t.set i) cs = Ret.void :: returns (s.set i) _
      rw [ih _ _ (reserved_more_set h i)]
    | unset i =>
      show Ret.flag (t.unset i).2 :: returns (t.unset i).1 cs =
        Ret.flag (s.unset i).2 :: returns (s.unset i).1 _
      rw [ih _ _ (reserved_more_unset h i).1, (reserved_more_unset h i).2]
    | get i =>
      show Ret.flag (t.get i) :: returns t cs = Ret.flag (s.get i) :: returns s _
      rw [ih _ _ h, reserved_more_get h]
    | head =>
      show Ret.index t.head :: returns t cs = Ret.index s.head :: returns s _
      rw [ih _ _ h, e2]
    | tail =>
      show Ret.index t.tail :: returns t cs = Ret.index s.tail :: returns s _
      rw [ih _ _ h, e3]
    | empty =>
      show Ret.flag t.empty :: returns t cs = Ret.flag s.empty :: returns s _
      rw [ih _ _ h, e1]

/-- C10 (`reserve_for_max_index` is a pure capacity hint): in every state it leaves `head()`,
`tail()`, `empty()` and `get(i)` for every `i` unchanged and keeps every existing segment as
it is; and for every sequence of calls on a newly constructed bitset, the values returned by
the `set`, `unset`, `get`, `head`, `tail` and `empty` calls are those returned by the same
sequence with all `reserve_for_max_index` calls left out. -/
theorem reserve_is_capacity_hint :
    (∀ (s : bitset_segmented) (m : Nat),
      (s.reserve_for_max_index m).head = s.head ∧
      (s.reserve_for_max_index m).tail = s.tail ∧
      (s.reserve_for_max_index m).empty = s.empty ∧
      (∀ i, (s.reserve_for_max_index m).get i = s.get i) ∧
      (∀ k a, seg_find s.segments k = some a →
        seg_find (s.reserve_for_max_index m).segments k = some a)) ∧
    (∀ cs : List Call,
      returns init cs = returns init (cs.filter (fun c => !is_reserve c))) := by
  refine ⟨fun s m => ⟨rfl, rfl, rfl, fun i => get_reserve s m i, ?_⟩, ?_⟩
  · intro k a h
    rw [reserve_segments]
    exact seg_find_reserve_some _ _ _ _ h
  · intro cs
    exact returns_reserved_more cs init init ⟨dir_more_refl List.Pairwise.nil, rfl, rfl⟩

/-! ### Uniqueness of the extrema, and removal of an extremum -/

theorem head_index_le {s : bitset_segmented} (hd : dir_ok s.segments) (hh : head_ok s) :
    s.head_index ≤ SIZE_MAX := by
  rcases hh.2 with h | h
  · rw [h]
  · have := dir_get_lt hd h
    have hM : SIZE_MAX = 18446744073709551615 := rfl
    omega

theorem head_index_unique {s t : bitset_segmented} (hs : dir_ok s.segments)
    (ht : dir_ok t.segments) (h1 : head_ok s) (h2 : head_ok t)
    (hg : ∀ j, t.get j = s.get j) : t.head_index = s.head_index := by
  have l1 := head_index_le hs h1
  have l2 := head_index_le ht h2
  apply Nat.le_antisymm
  · rcases h1.2 with h | h
    · rw [h]; exact l2
    · exact h2.1 _ (by rw [hg]; exact h)
  · rcases h2.2 with h | h
    · rw [h]; exact l1
    · exact h1.1 _ (by rw [← hg]; exact h)

theorem tail_index_unique {s t : bitset_segmented} (h1 : tail_ok s) (h2 : tail_ok t)
    (hg : ∀ j, t.get j = s.get j) : t.tail_index = s.tail_index := by
  obtain ⟨_, a1, a2⟩ := h1
  obtain ⟨_, b1, b2⟩ := h2
  apply Nat.le_antisymm
  · rcases b2 with h | h
    · omega
    · have := a1 _ (by rw [← hg]; exact h)
      have := b1 _ h
      omega
  · rcases a2 with h | h
    · omega
    · have := b1 _ (by rw [hg]; exact h)
      have := a1 _ h
      omega

/-- In a state with the invariants, `empty()` is false as soon as some index is set. -/
theorem not_empty_of_get {s : bitset_segmented} (hd : dir_ok s.segments) (hh : head_ok s)
    (ht : tail_ok s) {j : Nat} (hj : s.get j = true) :
    s.empty = false ∧ s.head = s.head_index ∧ s.tail = s.tail_index := by
  have hM : SIZE_MAX = 18446744073709551615 := rfl
  have hne : s.head_index ≠ SIZE_MAX := by
    intro e
    have h1 := hh.1 j hj
    have h2 := dir_get_lt hd hj
    have : j = SIZE_MAX := by omega
    rw [this, ht.1] at hj
    exact Bool.noConfusion hj
  have he : s.empty = false := by
    unfold bitset_segmented.empty
    exact beq_false_of_ne hne
  refine ⟨he, ?_, ?_⟩
  · unfold bitset_segmented.head; rw [he]; rfl
  · unfold bitset_segmented.tail; rw [he]; rfl

/-- In a state with the invariants, `empty()` is true and the accessors return 0 when no
index is set. -/
theorem empty_of_no_get {s : bitset_segmented} (hh : head_ok s)
    (hno : ∀ j, s.get j = false) : s.empty = true ∧ s.head = 0 ∧ s.tail = 0 := by
  have he : s.empty = true := by
    unfold bitset_segmented.empty
    rcases hh.2 with h | h
    · rw [h]; exact beq_self_eq_true _
    · rw [hno] at h; exact Bool.noConfusion h
  refine ⟨he, ?_, ?_⟩
  · unfold bitset_segmented.head; rw [he]; rfl
  · unfold bitset_segmented.tail; rw [he]; rfl

/-- The invariants of a state reached by calls with arguments below `SIZE_MAX`. -/
theorem all_inv_run (ops : List Op) (hb : below_max ops) :
    dir_ok (run init ops).segments ∧ head_ok (run init ops) ∧ tail_ok (run init ops) := by
  obtain ⟨hd, hh⟩ := base_inv_run ops init (valid_of_below_max hb) dir_ok_init head_ok_init
  exact ⟨hd, hh, tail_inv_run ops init hb dir_ok_init tail_ok_init⟩

/-- A non-empty state with the invariants: the accessors return the cached extrema, both of
which bound a set index. -/
theorem nonempty_facts {s : bitset_segmented} (hh : head_ok s) (ht : tail_ok s)
    (hne : s.empty = false) :
    s.head = s.head_index ∧ s.tail = s.tail_index ∧ s.get s.head_index = true ∧
    0 < s.tail_index ∧ s.get (s.tail_index - 1) = true ∧ s.head_index < s.tail_index := by
  have e1 : s.head = s.head_index := by unfold bitset_segmented.head; rw [hne]; rfl
  have e2 : s.tail = s.tail_index := by unfold bitset_segmented.tail; rw [hne]; rfl
  have hnm : s.head_index ≠ SIZE_MAX := by
    intro e
    unfold bitset_segmented.empty at hne
    rw [e] at hne
    exact absurd hne (by decide)
  have hget : s.get s.head_index = true := by
    rcases hh.2 with h | h
    · exact absurd h hnm
    · exact h
  have hlt := ht.2.1 _ hget
  refine ⟨e1, e2, hget, by omega, ?_, hlt⟩
  rcases ht.2.2 with h | h
  · omega
  · exact h

/-- C11 (head rescan correctness): in a non-empty state reached by calls with arguments below
the largest value of the index type, `unset(head())` returns true and removes exactly the index
`head()`; afterwards, if no index remains, `empty()` is true and `head()` is 0, and otherwise
`head()` is a set index below every other set index, i.e. the minimum of the remaining set
indices; `tail()` is unchanged unless the removed index was `tail() - 1`. -/
theorem head_rescan_correct (ops : List Op) (s : bitset_segmented) (hb : below_max ops)
    (hs : run init ops = s) (hne : s.empty = false) :
    (s.unset s.head).2 = true ∧
    (∀ j, (s.unset s.head).1.get j = (s.get j && !decide (j = s.head))) ∧
    ((∀ j, (s.unset s.head).1.get j = false) →
      (s.unset s.head).1.empty = true ∧ (s.unset s.head).1.head = 0) ∧
    ((∃ j, (s.unset s.head).1.get j = true) →
      (s.unset s.head).1.empty = false ∧
      (s.unset s.head).1.get (s.unset s.head).1.head = true ∧
      ∀ j, (s.unset s.head).1.get j = true → (s.unset s.head).1.head ≤ j) ∧
    (s.head + 1 ≠ s.tail → (s.unset s.head).1.tail = s.tail) := by
  subst hs
  obtain ⟨hd, hh, ht⟩ := all_inv_run ops hb
  obtain ⟨e1, e2, hgh, hpos, hgt, hlt⟩ := nonempty_facts hh ht hne
  have hd2 := dir_ok_unset hd (run init ops).head
  have hh2 := head_ok_unset hd hh (run init ops).head
  have ht2 := tail_ok_unset hd ht (run init ops).head
  have hg := get_unset (dir_wf_of_ok hd) (run init ops).head
  have hM : SIZE_MAX = 18446744073709551615 := rfl
  refine ⟨by rw [unset_snd, e1]; exact hgh, hg, ?_, ?_, ?_⟩
  · intro hno
    exact ⟨(empty_of_no_get hh2 hno).1, (empty_of_no_get hh2 hno).2.1⟩
  · rintro ⟨j, hj⟩
    obtain ⟨f1, f2, _⟩ := not_empty_of_get hd2 hh2 ht2 hj
    have hnm : ((run init ops).unset (run init ops).head).1.head_index ≠ SIZE_MAX := by
      intro e
      unfold bitset_segmented.empty at f1
      rw [e] at f1
      exact absurd f1 (by decide)
    refine ⟨f1, ?_, ?_⟩
    · rw [f2]
      rcases hh2.2 with h | h
      · exact absurd h hnm
      · exact h
    · intro k hk
      rw [f2]; exact hh2.1 k hk
  · intro hneq
    have hgl : (run init ops).get ((run init ops).tail_index - 1) = true := hgt
    have hrem : ((run init ops).unset (run init ops).head).1.get
        ((run init ops).tail_index - 1) = true := by
      rw [hg, hgl]
      have : ¬ (run init ops).tail_index - 1 = (run init ops).head := by
        rw [e1, e2] at hneq; rw [e1]; omega
      simp [this]
    obtain ⟨_, _, f3⟩ := not_empty_of_get hd2 hh2 ht2 hrem
    have hx := unset_tail_index (s := run init ops) (i := (run init ops).head)
      (by rw [e1]; exact hgh)
    have hlt2 : (run init ops).head_index < 18446744073709551616 := dir_get_lt hd hgh
    have hnmax : (run init ops).head_index ≠ SIZE_MAX := by
      intro e; rw [e, ht.1] at hgh; exact Bool.noConfusion hgh
    have hw : wrap ((run init ops).head + 1) = (run init ops).head + 1 := by
      rw [e1]; unfold wrap; omega
    rw [hw, if_neg (by rw [← e2]; exact hneq)] at hx
    rw [f3, hx, e2]

/-- Witness of C11 (Scenario B of the spec): after inserting 10, 50000, 3, 20000, 10,
`head()` is 3 and `unset(3)` gives `head() == 10` and `tail() == 50001`. -/
theorem head_rescan_correct_witness :
    below_max scenario_A ∧ (run init scenario_A).empty = false ∧
    (run init scenario_A).head = 3 ∧
    ((run init scenario_A).unset 3).1.head = 10 ∧
    ((run init scenario_A).unset 3).1.tail = 50001 ∧
    (((run init scenario_A).unset (run init scenario_A).head).2 = true ∧
      (∀ j, ((run init scenario_A).unset (run init scenario_A).head).1.get j =
        ((run init scenario_A).get j && !decide (j = (run init scenario_A).head))) ∧
      ((∀ j, ((run init scenario_A).unset (run init scenario_A).head).1.get j = false) →
        ((run init scenario_A).unset (run init scenario_A).head).1.empty = true ∧
        ((run init scenario_A).unset (run init scenario_A).head).1.head = 0) ∧
      ((∃ j, ((run init scenario_A).unset (run init scenario_A).head).1.get j = true) →
        ((run init scenario_A).unset (run init scenario_A).head).1.empty = false ∧
        ((run init scenario_A).unset (run init scenario_A).head).1.get
          ((run init scenario_A).unset (run init scenario_A).head).1.head = true ∧
        ∀ j, ((run init scenario_A).unset (run init scenario_A).head).1.get j = true →
          ((run init scenario_A).unset (run init scenario_A).head).1.head ≤ j) ∧
      ((run init scenario_A).head + 1 ≠ (run init scenario_A).tail →
        ((run init scenario_A).unset (run init scenario_A).head).1.tail =
          (run init scenario_A).tail)) :=
  ⟨by unfold below_max; decide, by decide, by decide, by decide, by decide,
    head_rescan_correct scenario_A (run init scenario_A) (by unfold below_max; decide) rfl
      (by decide)⟩

/-- C12 (tail rescan correctness): in a non-empty state reached by calls with arguments below
the largest value of the index type, `unset(tail() - 1)` returns true and removes exactly the
index `tail() - 1`; afterwards, if no index remains, `empty()` is true and `tail()` is 0, and
otherwise `tail() - 1` is a set index and every set index is below `tail()`, i.e. `tail()` is
one plus the largest remaining set index; `head()` is unchanged unless the removed index
was `head()`. -/
theorem tail_rescan_correct (ops : List Op) (s : bitset_segmented) (hb : below_max ops)
    (hs : run init ops = s) (hne : s.empty = false) :
    (s.unset (s.tail - 1)).2 = true ∧
    (∀ j, (s.unset (s.tail - 1)).1.get j = (s.get j && !decide (j = s.tail - 1))) ∧
    ((∀ j, (s.unset (s.tail - 1)).1.get j = false) →
      (s.unset (s.tail - 1)).1.empty = true ∧ (s.unset (s.tail - 1)).1.tail = 0) ∧
    ((∃ j, (s.unset (s.tail - 1)).1.get j = true) →
      (s.unset (s.tail - 1)).1.empty = false ∧
      0 < (s.unset (s.tail - 1)).1.tail ∧
      (s.unset (s.tail - 1)).1.get ((s.unset (s.tail - 1)).1.tail - 1) = true ∧
      ∀ j, (s.unset (s.tail - 1)).1.get j = true → j < (s.unset (s.tail - 1)).1.tail) ∧
    (s.tail - 1 ≠ s.head → (s.unset (s.tail - 1)).1.head = s.head) := by
  subst hs
  obtain ⟨hd, hh, ht⟩ := all_inv_run ops hb
  obtain ⟨e1, e2, hgh, hpos, hgt, hlt⟩ := nonempty_facts hh ht hne
  have hd2 := dir_ok_unset hd ((run init ops).tail - 1)
  have hh2 := head_ok_unset hd hh ((run init ops).tail - 1)
  have ht2 := tail_ok_unset hd ht ((run init ops).tail - 1)
  have hg := get_unset (dir_wf_of_ok hd) ((run init ops).tail - 1)
  refine ⟨by rw [unset_snd, e2]; exact hgt, hg, ?_, ?_, ?_⟩
  · intro hno
    exact ⟨(empty_of_no_get hh2 hno).1, (empty_of_no_get hh2 hno).2.2⟩
  · rintro ⟨j, hj⟩
    obtain ⟨f1, _, f3⟩ := not_empty_of_get hd2 hh2 ht2 hj
    obtain ⟨_, _, _, g1, g2, _⟩ := nonempty_facts hh2 ht2 f1
    rw [f3]
    exact ⟨f1, g1, g2, fun k hk => ht2.2.1 k hk⟩
  · intro hneq
    have hrem : ((run init ops).unset ((run init ops).tail - 1)).1.get
        (run init ops).head_index = true := by
      rw [hg, hgh]
      have : ¬ (run init ops).head_index = (run init ops).tail - 1 := by
        rw [e1] at hneq; exact fun e => hneq e.symm
      simp [this]
    obtain ⟨_, f2, _⟩ := not_empty_of_get hd2 hh2 ht2 hrem
    have hx := unset_head_index (s := run init ops) (i := (run init ops).tail - 1)
      (by rw [e2]; exact hgt)
    rw [if_neg (by rw [← e1]; exact hneq)] at hx
    rw [f2, hx, e1]

/-- Witness of C12 (Scenario C of the spec): after inserting 10, 50000, 3, 20000, 10,
`tail()` is 50001 and `unset(50000)`, which removes the only bit of its segment, gives
`tail() == 20001` and leaves `head() == 3`. -/
theorem tail_rescan_correct_witness :
    below_max scenario_A ∧ (run init scenario_A).empty = false ∧
    (run init scenario_A).tail = 50001 ∧
    ((run init scenario_A).unset 50000).1.tail = 20001 ∧
    ((run init scenario_A).unset 50000).1.head = 3 ∧
    (((run init scenario_A).unset ((run init scenario_A).tail - 1)).2 = true ∧
      (∀ j, ((run init scenario_A).unset ((run init scenario_A).tail - 1)).1.get j =
        ((run init scenario_A).get j && !decide (j = (run init scenario_A).tail - 1))) ∧
      ((∀ j, ((run init scenario_A).unset ((run init scenario_A).tail - 1)).1.get j = false) →
        ((run init scenario_A).unset ((run init scenario_A).tail - 1)).1.empty = true ∧
        ((run init scenario_A).unset ((run init scenario_A).tail - 1)).1.tail = 0) ∧
      ((∃ j, ((run init scenario_A).unset ((run init scenario_A).tail - 1)).1.get j = true) →
        ((run init scenario_A).unset ((run init scenario_A).tail - 1)).1.empty = false ∧
        0 < ((run init scenario_A).unset ((run init scenario_A).tail - 1)).1.tail ∧
        ((run init scenario_A).unset ((run init scenario_A).tail - 1)).1.get
          (((run init scenario_A).unset ((run init scenario_A).tail - 1)).1.tail - 1) = true ∧
        ∀ j, ((run init scenario_A).unset ((run init scenario_A).tail - 1)).1.get j = true →
          j < ((run init scenario_A).unset ((run init scenario_A).tail - 1)).1.tail) ∧
      ((run init scenario_A).tail - 1 ≠ (run init scenario_A).head →
        ((run init scenario_A).unset ((run init scenario_A).tail - 1)).1.head =
          (run init scenario_A).head)) :=
  ⟨by unfold below_max; decide, by decide, by decide, by decide, by decide,
    tail_rescan_correct scenario_A (run init scenario_A) (by unfold below_max; decide) rfl
      (by decide)⟩

/-- C13 (Scenario A): on a newly constructed bitset, after `set(10)`, `set(50000)`, `set(3)`,
`set(20000)`, `set(10)` in this order, `head() == 3`, `tail() == 50001`, `get(10)` is true and
`get(11)` is false. -/
theorem scenario_A_result :
    scenario_A = [Op.set 10, Op.set 50000, Op.set 3, Op.set 20000, Op.set 10] ∧
    (run init scenario_A).head = 3 ∧ (run init scenario_A).tail = 50001 ∧
    (run init scenario_A).get 10 = true ∧ (run init scenario_A).get 11 = false := by
  decide

/-! ### Insertion with the O(1) update, and the cache invariant -/

theorem set_head_is_min {s : bitset_segmented} (hd : dir_ok s.segments) (hh : head_ok s)
    {i : Nat} (hi : i < SIZE_MAX) : (s.set i).head_index = min s.head_index i := by
  have hM : SIZE_MAX = 18446744073709551615 := rfl
  have hh1 := head_ok_set hd hh (i := i) (by omega)
  have hg := get_set (dir_wf_of_ok hd) i
  have hgi : (s.set i).get i = true := by rw [hg]; simp
  have hx := set_head_index s i
  by_cases hc : ((seg_find s.segments (i / BITSET_SEGMENT_SIZE)).getD bitset_array.fresh).count = 0
  · rw [if_pos hc] at hx
    by_cases hlt : s.head_index > i
    · have hle := hh1.1 i hgi
      rw [Nat.min_eq_right (Nat.le_of_lt hlt)]
      rcases hh1.2 with h | h
      · omega
      · rw [hg] at h
        cases hsh : s.get (s.set i).head_index
        · rw [hsh] at h
          simpa using h
        · have := hh.1 _ hsh
          omega
    · rw [if_neg hlt] at hx
      rw [hx, Nat.min_eq_left (by omega)]
  · rw [if_neg hc] at hx
    exact hx

theorem set_tail_is_max {s : bitset_segmented} (hd : dir_ok s.segments) (ht : tail_ok s)
    {i : Nat} (hi : i < SIZE_MAX) : (s.set i).tail_index = max s.tail_index (wrap (i + 1)) := by
  have hM : SIZE_MAX = 18446744073709551615 := rfl
  have ht1 := tail_ok_set hd ht hi
  have hg := get_set (dir_wf_of_ok hd) i
  have hgi : (s.set i).get i = true := by rw [hg]; simp
  have hx := set_tail_index s i
  have hw : wrap (i + 1) = i + 1 := by unfold wrap; omega
  rw [hw] at hx ⊢
  by_cases hc : ((seg_find s.segments (i / BITSET_SEGMENT_SIZE)).getD bitset_array.fresh).count = 0
  · rw [if_pos hc] at hx
    by_cases hlt : s.tail_index < i + 1
    · have hle := ht1.2.1 i hgi
      rw [Nat.max_eq_right (Nat.le_of_lt hlt)]
      rcases ht1.2.2 with h | h
      · omega
      · rw [hg] at h
        cases hsh : s.get ((s.set i).tail_index - 1)
        · rw [hsh] at h
          have : (s.set i).tail_index - 1 = i := by simpa using h
          omega
        · have := ht.2.1 _ hsh
          omega
    · rw [if_neg hlt] at hx
      rw [hx, Nat.max_eq_left (by omega)]
  · rw [if_neg hc] at hx
    exact hx

/-- C14 (the conditional rescan of `set` refines the O(1) update): in every state reached by
calls with arguments below the largest value of the index type, and for every such index `i`,
`set(i)` as implemented gives the same state, with the same segments, `head_index` and
`tail_index`, as the `set(i)` that always takes the minimum and the maximum. -/
theorem set_refines_minmax (ops : List Op) (hb : below_max ops) (i : Nat) (hi : i < SIZE_MAX) :
    (run init ops).set i = set_minmax (run init ops) i := by
  obtain ⟨hd, hh, ht⟩ := all_inv_run ops hb
  have hH := set_head_is_min hd hh hi
  have hT := set_tail_is_max hd ht hi
  have hS : ((run init ops).set i).segments =
      seg_store (run init ops).segments (i / BITSET_SEGMENT_SIZE)
        (((seg_find (run init ops).segments (i / BITSET_SEGMENT_SIZE)).getD
          bitset_array.fresh).set (i % BITSET_SEGMENT_SIZE)) := by
    rw [set_eq]
  calc (run init ops).set i
      = { segments := ((run init ops).set i).segments
          head_index := ((run init ops).set i).head_index
          tail_index := ((run init ops).set i).tail_index } := rfl
    _ = set_minmax (run init ops) i := by rw [hH, hT, hS]; rfl

/-- Witness of C14 on the state after `set(70000); set(5); unset(5)`: the index 3 opens an
empty segment below `head_index`, so the implemented `set` rescans. -/
theorem set_refines_minmax_witness :
    below_max [Op.set 70000, Op.set 5, Op.unset 5] ∧ 3 < SIZE_MAX ∧
    (run init [Op.set 70000, Op.set 5, Op.unset 5]).set 3 =
      set_minmax (run init [Op.set 70000, Op.set 5, Op.unset 5]) 3 :=
  ⟨by unfold below_max; decide, by decide,
    set_refines_minmax [Op.set 70000, Op.set 5, Op.unset 5] (by unfold below_max; decide) 3
      (by decide)⟩

theorem mem_live_segments (s : bitset_segmented) (p : Nat × bitset_array) :
    p ∈ live_segments s ↔ p ∈ s.segments ∧ p.2.count ≠ 0 := by
  unfold live_segments
  rw [List.mem_filter]
  constructor
  · rintro ⟨h1, h2⟩; exact ⟨h1, bne_iff_ne.mp h2⟩
  · rintro ⟨h1, h2⟩; exact ⟨h1, bne_iff_ne.mpr h2⟩

/-- The segment of a set index is live, and the index lies between its candidates. -/
theorem live_of_get {s : bitset_segmented} (hd : dir_ok s.segments) {i : Nat}
    (hi : s.get i = true) :
    ∃ p, p ∈ live_segments s ∧ p.1 = i / 16384 ∧
      p.1 * 16384 + p.2.local_min ≤ i ∧ i ≤ p.1 * 16384 + p.2.local_max := by
  obtain ⟨a, hf, hc, _, hlo, hhi, _⟩ := dir_get_true hd hi
  have hS : BITSET_SEGMENT_SIZE = 16384 := rfl
  rw [hS] at hf hlo hhi
  refine ⟨(i / 16384, a), (mem_live_segments s _).mpr ⟨mem_of_seg_find hf, hc⟩, rfl, ?_, ?_⟩
  · show i / 16384 * 16384 + a.local_min ≤ i
    omega
  · show i ≤ i / 16384 * 16384 + a.local_max
    omega

/-- C15 (global cache invariant): in every state reached from a newly constructed bitset by
calls with arguments below the largest value of the index type, if some segment has
`count > 0` then `head_index` is the minimum over those segments of `id * 16384 + local_min`
and `tail_index` is one plus the maximum over them of `id * 16384 + local_max`; and if no
segment has `count > 0` then `head_index` is the sentinel `SIZE_MAX` and `tail_index` is 0. -/
theorem global_cache_invariant (ops : List Op) (hb : below_max ops) :
    (live_segments (run init ops) ≠ [] →
      is_min_of (run init ops).head_index (min_candidates (run init ops)) ∧
      ∃ m, is_max_of m (max_candidates (run init ops)) ∧ (run init ops).tail_index = m + 1) ∧
    (live_segments (run init ops) = [] →
      (run init ops).head_index = SIZE_MAX ∧ (run init ops).tail_index = 0) := by
  obtain ⟨hd, hh, ht⟩ := all_inv_run ops hb
  generalize run init ops = s at hd hh ht
  constructor
  · intro hne
    obtain ⟨p, hp⟩ := List.exists_mem_of_ne_nil _ hne
    obtain ⟨hps, hpc⟩ := (mem_live_segments s p).mp hp
    obtain ⟨_, _, _, gmin, _⟩ := dir_get_extrema hd hps hpc
    have gmin2 : s.get (p.1 * 16384 + p.2.local_min) = true := gmin
    obtain ⟨he, _, _⟩ := not_empty_of_get hd hh ht gmin2
    obtain ⟨_, _, hgh, hpos, hgt, _⟩ := nonempty_facts hh ht he
    have cand_set : ∀ q, q ∈ live_segments s →
        s.get (q.1 * 16384 + q.2.local_min) = true ∧
        s.get (q.1 * 16384 + q.2.local_max) = true := by
      intro q hq
      obtain ⟨hqs, hqc⟩ := (mem_live_segments s q).mp hq
      obtain ⟨_, _, _, g1, g2⟩ := dir_get_extrema hd hqs hqc
      exact ⟨g1, g2⟩
    refine ⟨⟨?_, ?_⟩, s.tail_index - 1, ⟨?_, ?_⟩, by omega⟩
    · obtain ⟨q, hq, _, hlo, _⟩ := live_of_get hd hgh
      have := hh.1 _ (cand_set q hq).1
      unfold min_candidates
      rw [List.mem_map]
      exact ⟨q, hq, by omega⟩
    · intro c hc
      unfold min_candidates at hc
      rw [List.mem_map] at hc
      obtain ⟨q, hq, rfl⟩ := hc
      exact hh.1 _ (cand_set q hq).1
    · obtain ⟨q, hq, _, _, hhi⟩ := live_of_get hd hgt
      have := ht.2.1 _ (cand_set q hq).2
      unfold max_candidates
      rw [List.mem_map]
      exact ⟨q, hq, by omega⟩
    · intro c hc
      unfold max_candidates at hc
      rw [List.mem_map] at hc
      obtain ⟨q, hq, rfl⟩ := hc
      have := ht.2.1 _ (cand_set q hq).2
      omega
  · intro hnil
    have hno : ∀ j, s.get j = false := by
      intro j
      cases hj : s.get j
      · rfl
      · obtain ⟨q, hq, _⟩ := live_of_get hd hj
        rw [hnil] at hq
        exact absurd hq (List.not_mem_nil q)
    constructor
    · rcases hh.2 with h | h
      · exact h
      · rw [hno] at h; exact Bool.noConfusion h
    · rcases ht.2.2 with h | h
      · exact h
      · rw [hno] at h; exact Bool.noConfusion h

/-- Witness of C15 on Scenario A followed by `unset(50000)`: segment 3 stays in the directory
with `count == 0` and does not contribute. -/
theorem global_cache_invariant_witness :
    below_max (scenario_A ++ [Op.unset 50000]) ∧
    ((live_segments (run init (scenario_A ++ [Op.unset 50000])) ≠ [] →
      is_min_of (run init (scenario_A ++ [Op.unset 50000])).head_index
        (min_candidates (run init (scenario_A ++ [Op.unset 50000]))) ∧
      ∃ m, is_max_of m (max_candidates (run init (scenario_A ++ [Op.unset 50000]))) ∧
        (run init (scenario_A ++ [Op.unset 50000])).tail_index = m + 1) ∧
    (live_segments (run init (scenario_A ++ [Op.unset 50000])) = [] →
      (run init (scenario_A ++ [Op.unset 50000])).head_index = SIZE_MAX ∧
      (run init (scenario_A ++ [Op.unset 50000])).tail_index = 0)) :=
  ⟨by unfold below_max; decide,
    global_cache_invariant (scenario_A ++ [Op.unset 50000]) (by unfold below_max; decide)⟩

/-! ### Segments under sequences of calls -/

theorem seg_inv_run (ops : List SegOp) : ∀ (a : bitset_array), a.inv → valid_offsets ops →
    (seg_run a ops).inv := by
  induction ops with
  | nil => intro a h _; exact h
  | cons op rest ih =>
    intro a h hv
    have hv1 : op.offset < BITSET_SEGMENT_SIZE := hv op (List.mem_cons_self _ _)
    have hv2 : valid_offsets rest := fun o ho => hv o (List.mem_cons_of_mem _ ho)
    show (seg_run (seg_apply a op) rest).inv
    cases op with
    | set b => exact ih _ (bitset_array.inv_set h hv1) hv2
    | unset b => exact ih _ (bitset_array.inv_unset h hv1) hv2

/-- C16 (segment count invariant): in every segment obtained from a zero-initialised segment by
`set(offset)` and `unset(offset)` calls with offsets in `0..16383`, `count` is the number of
offsets whose bit tests true (so it is at most 16384 and never wraps below zero), no offset
outside `0..16383` tests true, and when `count == 0` the extrema hold their sentinels
`local_min = SIZE_MAX` and `local_max = 0`. -/
theorem segment_count_invariant (ops : List SegOp) (hv : valid_offsets ops) :
    (seg_run bitset_array.fresh ops).count = (seg_run bitset_array.fresh ops).popcount ∧
    (seg_run bitset_array.fresh ops).count ≤ 16384 ∧
    (∀ b, (seg_run bitset_array.fresh ops).test b = true → b < 16384) ∧
    ((seg_run bitset_array.fresh ops).count = 0 →
      (seg_run bitset_array.fresh ops).local_min = SIZE_MAX ∧
      (seg_run bitset_array.fresh ops).local_max = 0) := by
  obtain ⟨hwf, hc, hz, _⟩ := seg_inv_run ops _ bitset_array.inv_fresh hv
  refine ⟨hc, ?_, fun b hb => bitset_array.test_lt hwf hb, hz⟩
  rw [hc]; exact bitset_array.popcount_le _

/-- Witness of C16 on `set(5); set(70); unset(5); unset(70); unset(9)`: the count returns
to 0 and the last call, on a clear bit, does not decrement it. -/
theorem segment_count_invariant_witness :
    valid_offsets [SegOp.set 5, SegOp.set 70, SegOp.unset 5, SegOp.unset 70, SegOp.unset 9] ∧
    (seg_run bitset_array.fresh
      [SegOp.set 5, SegOp.set 70, SegOp.unset 5, SegOp.unset 70, SegOp.unset 9]).count = 0 ∧
    ((seg_run bitset_array.fresh
        [SegOp.set 5, SegOp.set 70, SegOp.unset 5, SegOp.unset 70, SegOp.unset 9]).count =
      (seg_run bitset_array.fresh
        [SegOp.set 5, SegOp.set 70, SegOp.unset 5, SegOp.unset 70, SegOp.unset 9]).popcount ∧
    (seg_run bitset_array.fresh
      [SegOp.set 5, SegOp.set 70, SegOp.unset 5, SegOp.unset 70, SegOp.unset 9]).count ≤ 16384 ∧
    (∀ b, (seg_run bitset_array.fresh
      [SegOp.set 5, SegOp.set 70, SegOp.unset 5, SegOp.unset 70, SegOp.unset 9]).test b = true →
        b < 16384) ∧
    ((seg_run bitset_array.fresh
        [SegOp.set 5, SegOp.set 70, SegOp.unset 5, SegOp.unset 70, SegOp.unset 9]).count = 0 →
      (seg_run bitset_array.fresh
        [SegOp.set 5, SegOp.set 70, SegOp.unset 5, SegOp.unset 70, SegOp.unset 9]).local_min
          = SIZE_MAX ∧
      (seg_run bitset_array.fresh
        [SegOp.set 5, SegOp.set 70, SegOp.unset 5, SegOp.unset 70, SegOp.unset 9]).local_max
          = 0)) :=
  ⟨by unfold valid_offsets; decide, by decide,
    segment_count_invariant
      [SegOp.set 5, SegOp.set 70, SegOp.unset 5, SegOp.unset 70, SegOp.unset 9]
      (by unfold valid_offsets; decide)⟩

/-- C17 (segment extrema invariant): in every segment obtained from a zero-initialised segment
by `set(offset)` and `unset(offset)` calls with offsets in `0..16383`, when `count > 0` the
bit at `local_min` is set and no smaller offset is, the bit at `local_max` is set and no larger
offset is, and `local_min <= local_max`. -/
theorem segment_extrema_invariant (ops : List SegOp) (hv : valid_offsets ops)
    (hc : 0 < (seg_run bitset_array.fresh ops).count) :
    (seg_run bitset_array.fresh ops).test (seg_run bitset_array.fresh ops).local_min = true ∧
    (∀ b, (seg_run bitset_array.fresh ops).test b = true →
      (seg_run bitset_array.fresh ops).local_min ≤ b) ∧
    (seg_run bitset_array.fresh ops).test (seg_run bitset_array.fresh ops).local_max = true ∧
    (∀ b, (seg_run bitset_array.fresh ops).test b = true →
      b ≤ (seg_run bitset_array.fresh ops).local_max) ∧
    (seg_run bitset_array.fresh ops).local_min ≤ (seg_run bitset_array.fresh ops).local_max := by
  obtain ⟨_, _, _, hnz⟩ := seg_inv_run ops _ bitset_array.inv_fresh hv
  obtain ⟨t1, t2, t3⟩ := hnz (by omega)
  exact ⟨t1, fun b hb => (t3 b hb).1, t2, fun b hb => (t3 b hb).2, (t3 _ t2).1⟩

/-- Witness of C17 on `rescan_ops`: both removals take the current extremum and trigger the
local rescan, which leaves `local_min = 70` and `local_max = 16330`. -/
theorem segment_extrema_invariant_witness :
    valid_offsets rescan_ops ∧
    0 < (seg_run bitset_array.fresh rescan_ops).count ∧
    (seg_run bitset_array.fresh rescan_ops).local_min = 70 ∧
    (seg_run bitset_array.fresh rescan_ops).local_max = 16330 ∧
    ((seg_run bitset_array.fresh rescan_ops).test
        (seg_run bitset_array.fresh rescan_ops).local_min = true ∧
    (∀ b, (seg_run bitset_array.fresh rescan_ops).test b = true →
      (seg_run bitset_array.fresh rescan_ops).local_min ≤ b) ∧
    (seg_run bitset_array.fresh rescan_ops).test
        (seg_run bitset_array.fresh rescan_ops).local_max = true ∧
    (∀ b, (seg_run bitset_array.fresh rescan_ops).test b = true →
      b ≤ (seg_run bitset_array.fresh rescan_ops).local_max) ∧
    (seg_run bitset_array.fresh rescan_ops).local_min ≤
      (seg_run bitset_array.fresh rescan_ops).local_max) :=
  ⟨by unfold valid_offsets; decide, by decide, by decide, by decide,
    segment_extrema_invariant rescan_ops (by unfold valid_offsets; decide) (by decide)⟩

/-! ### The local rescans in closed form -/

namespace bitset_array

theorem update_local_min_from_eq (a : bitset_array) (wi : Nat)
    (hne : a.words.getD wi 0 ≠ 0) : ∀ (n wi0 : Nat), wi0 ≤ wi → wi < wi0 + n →
    (∀ j, wi0 ≤ j → j < wi → a.words.getD j 0 = 0) →
    a.update_local_min_from n wi0 =
      { a with local_min := wrap (wi * WORD_BITS + ctzll (a.words.getD wi 0)) } := by
  intro n
  induction n with
  | zero => intro wi0 h1 h2 _; omega
  | succ n ih =>
    intro wi0 h1 h2 hz
    unfold update_local_min_from
    by_cases he : wi0 = wi
    · subst he
      rw [if_pos (bne_iff_ne.mpr hne)]
    · have h0 : a.words.getD wi0 0 = 0 := hz wi0 (Nat.le_refl _) (by omega)
      have : (a.words.getD wi0 0 != 0) = false := by rw [h0]; rfl
      rw [this]
      simp only [Bool.false_eq_true, if_false]
      exact ih (wi0 + 1) (by omega) (by omega) (fun j hj1 hj2 => hz j (by omega) hj2)

theorem update_local_min_from_zero (a : bitset_array) : ∀ (n wi0 : Nat),
    (∀ j, wi0 ≤ j → j < wi0 + n → a.words.getD j 0 = 0) →
    a.update_local_min_from n wi0 = a := by
  intro n
  induction n with
  | zero => intro wi0 _; rfl
  | succ n ih =>
    intro wi0 hz
    unfold update_local_min_from
    have h0 : a.words.getD wi0 0 = 0 := hz wi0 (Nat.le_refl _) (by omega)
    have : (a.words.getD wi0 0 != 0) = false := by rw [h0]; rfl
    rw [this]
    simp only [Bool.false_eq_true, if_false]
    exact ih (wi0 + 1) (fun j hj1 hj2 => hz j (by omega) (by omega))

theorem update_local_max_from_eq (a : bitset_array) (wi : Nat)
    (hne : a.words.getD wi 0 ≠ 0) : ∀ (n : Nat), wi < n →
    (∀ j, wi < j → j < n → a.words.getD j 0 = 0) →
    a.update_local_max_from n =
      { a with
        local_max := wrap (wi * WORD_BITS + (WORD_BITS - 1 - clzll (a.words.getD wi 0))) } := by
  intro n
  induction n with
  | zero => intro h1 _; omega
  | succ n ih =>
    intro h1 hz
    unfold update_local_max_from
    by_cases he : n = wi
    · subst he
      rw [if_pos (bne_iff_ne.mpr hne)]
    · have h0 : a.words.getD n 0 = 0 := hz n (by omega) (by omega)
      have : (a.words.getD n 0 != 0) = false := by rw [h0]; rfl
      rw [this]
      simp only [Bool.false_eq_true, if_false]
      exact ih (by omega) (fun j hj1 hj2 => hz j hj1 (by omega))

theorem update_local_max_from_zero (a : bitset_array) : ∀ (n : Nat),
    (∀ j, j < n → a.words.getD j 0 = 0) → a.update_local_max_from n = a := by
  intro n
  induction n with
  | zero => intro _; rfl
  | succ n ih =>
    intro hz
    unfold update_local_max_from
    have h0 : a.words.getD n 0 = 0 := hz n (by omega)
    have : (a.words.getD n 0 != 0) = false := by rw [h0]; rfl
    rw [this]
    simp only [Bool.false_eq_true, if_false]
    exact ih (fun j hj => hz j (by omega))

theorem clzll_lt {x : Nat} (h0 : x ≠ 0) (hx : x < 2 ^ 64) : clzll x < 64 := by
  obtain ⟨j, hj⟩ := Nat.ne_zero_implies_bit_true h0
  exact (clzll_from_spec x 64 ⟨j, testBit_lt_of_lt x j hx hj, hj⟩).1

end bitset_array

/-- C18 (local rescan correctness): for a segment of 256 64-bit words, if `wi` is the
lowest-numbered nonzero word then `update_local_min` sets `local_min` to `wi * 64` plus the
number of trailing zero bits of `words[wi]` and changes nothing else, and that offset is the
smallest one whose bit tests true; if `wi` is the highest-numbered nonzero word then
`update_local_max` sets `local_max` to `wi * 64 + (63 - number of leading zero bits of
words[wi])` and changes nothing else, and that offset is the largest one whose bit tests true;
on an all-zero segment each leaves the segment unchanged. -/
theorem local_rescan_correct (a : bitset_array) (hwf : a.wf) :
    (∀ wi, wi < 256 → a.words.getD wi 0 ≠ 0 → (∀ j, j < wi → a.words.getD j 0 = 0) →
      a.update_local_min = { a with local_min := wi * 64 + ctzll (a.words.getD wi 0) } ∧
      (a.words.getD wi 0).testBit (ctzll (a.words.getD wi 0)) = true ∧
      (∀ k, k < ctzll (a.words.getD wi 0) → (a.words.getD wi 0).testBit k = false) ∧
      a.test (wi * 64 + ctzll (a.words.getD wi 0)) = true ∧
      ∀ b, a.test b = true → wi * 64 + ctzll (a.words.getD wi 0) ≤ b) ∧
    (∀ wi, wi < 256 → a.words.getD wi 0 ≠ 0 →
      (∀ j, wi < j → j < 256 → a.words.getD j 0 = 0) →
      a.update_local_max =
        { a with local_max := wi * 64 + (63 - clzll (a.words.getD wi 0)) } ∧
      clzll (a.words.getD wi 0) ≤ 63 ∧
      (a.words.getD wi 0).testBit (63 - clzll (a.words.getD wi 0)) = true ∧
      (∀ k, 63 - clzll (a.words.getD wi 0) < k → (a.words.getD wi 0).testBit k = false) ∧
      a.test (wi * 64 + (63 - clzll (a.words.getD wi 0))) = true ∧
      ∀ b, a.test b = true → b ≤ wi * 64 + (63 - clzll (a.words.getD wi 0))) ∧
    ((∀ j, j < 256 → a.words.getD j 0 = 0) →
      a.update_local_min = a ∧ a.update_local_max = a) := by
  refine ⟨?_, ?_, ?_⟩
  · intro wi hwi hne hz
    obtain ⟨c1, c2, c3⟩ := bitset_array.ctzll_spec hne (bitset_array.wf_getD hwf wi)
    have hr : wrap (wi * WORD_BITS + ctzll (a.words.getD wi 0)) =
        wi * 64 + ctzll (a.words.getD wi 0) := by
      unfold wrap WORD_BITS; omega
    have heq : a.update_local_min =
        { a with local_min := wi * 64 + ctzll (a.words.getD wi 0) } := by
      unfold bitset_array.update_local_min
      rw [bitset_array.update_local_min_from_eq a wi hne WORD_COUNT 0 (Nat.zero_le _)
        (by show wi < 0 + 256; omega) (fun j _ hj => hz j hj), hr]
    obtain ⟨s1, s2⟩ := bitset_array.update_local_min_from_spec hwf 256 0
      (fun j hj => by omega) ⟨wi, by omega, by omega, hne⟩ (by omega)
    have hl : (a.update_local_min_from 256 0).local_min =
        wi * 64 + ctzll (a.words.getD wi 0) := by
      have : a.update_local_min_from 256 0 = a.update_local_min := rfl
      rw [this, heq]
    rw [hl] at s1 s2
    exact ⟨heq, c1, c3, s1, s2⟩
  · intro wi hwi hne hz
    obtain ⟨c1, c3⟩ := bitset_array.clzll_spec hne (bitset_array.wf_getD hwf wi)
    have c0 := bitset_array.clzll_lt hne (bitset_array.wf_getD hwf wi)
    have hr : wrap (wi * WORD_BITS + (WORD_BITS - 1 - clzll (a.words.getD wi 0))) =
        wi * 64 + (63 - clzll (a.words.getD wi 0)) := by
      unfold wrap WORD_BITS; omega
    have heq : a.update_local_max =
        { a with local_max := wi * 64 + (63 - clzll (a.words.getD wi 0)) } := by
      unfold bitset_array.update_local_max
      rw [bitset_array.update_local_max_from_eq a wi hne WORD_COUNT
        (by show wi < 256; omega) (fun j hj1 hj2 => hz j hj1 hj2), hr]
    obtain ⟨s1, s2⟩ := bitset_array.update_local_max_from_spec hwf 256
      (fun j hj => bitset_array.getD_of_le _ _ (by rw [hwf.1]; exact hj)) ⟨wi, hwi, hne⟩
      (by omega)
    have hl : (a.update_local_max_from 256).local_max =
        wi * 64 + (63 - clzll (a.words.getD wi 0)) := by
      have : a.update_local_max_from 256 = a.update_local_max := rfl
      rw [this, heq]
    rw [hl] at s1 s2
    exact ⟨heq, by omega, c1, c3, s1, s2⟩
  · intro hz
    constructor
    · unfold bitset_array.update_local_min
      exact bitset_array.update_local_min_from_zero a WORD_COUNT 0 (fun j _ hj => hz j hj)
    · unfold bitset_array.update_local_max
      exact bitset_array.update_local_max_from_zero a WORD_COUNT (fun j hj => hz j hj)

theorem stale_segment_wf : stale_segment.wf :=
  bitset_array.wf_set (bitset_array.wf_set bitset_array.wf_fresh)

/-- Witness of C18 on a segment with the bits 70 and 16330 and stale extrema: the rescans
give `local_min = 70` and `local_max = 16330`. -/
theorem local_rescan_correct_witness :
    stale_segment.wf ∧
    stale_segment.update_local_min.local_min = 70 ∧
    stale_segment.update_local_max.local_max = 16330 ∧
    ((∀ wi, wi < 256 → stale_segment.words.getD wi 0 ≠ 0 →
      (∀ j, j < wi → stale_segment.words.getD j 0 = 0) →
      stale_segment.update_local_min =
        { stale_segment with
          local_min := wi * 64 + ctzll (stale_segment.words.getD wi 0) } ∧
      (stale_segment.words.getD wi 0).testBit (ctzll (stale_segment.words.getD wi 0)) = true ∧
      (∀ k, k < ctzll (stale_segment.words.getD wi 0) →
        (stale_segment.words.getD wi 0).testBit k = false) ∧
      stale_segment.test (wi * 64 + ctzll (stale_segment.words.getD wi 0)) = true ∧
      ∀ b, stale_segment.test b = true →
        wi * 64 + ctzll (stale_segment.words.getD wi 0) ≤ b) ∧
    (∀ wi, wi < 256 → stale_segment.words.getD wi 0 ≠ 0 →
      (∀ j, wi < j → j < 256 → stale_segment.words.getD j 0 = 0) →
      stale_segment.update_local_max =
        { stale_segment with
          local_max := wi * 64 + (63 - clzll (stale_segment.words.getD wi 0)) } ∧
      clzll (stale_segment.words.getD wi 0) ≤ 63 ∧
      (stale_segment.words.getD wi 0).testBit
        (63 - clzll (stale_segment.words.getD wi 0)) = true ∧
      (∀ k, 63 - clzll (stale_segment.words.getD wi 0) < k →
        (stale_segment.words.getD wi 0).testBit k = false) ∧
      stale_segment.test (wi * 64 + (63 - clzll (stale_segment.words.getD wi 0))) = true ∧
      ∀ b, stale_segment.test b = true →
        b ≤ wi * 64 + (63 - clzll (stale_segment.words.getD wi 0))) ∧
    ((∀ j, j < 256 → stale_segment.words.getD j 0 = 0) →
      stale_segment.update_local_min = stale_segment ∧
      stale_segment.update_local_max = stale_segment)) :=
  ⟨stale_segment_wf, by decide, by decide, local_rescan_correct stale_segment stale_segment_wf⟩

/-! ### The directory only grows -/

theorem mem_keys_iff (m : List (Nat × bitset_array)) (k : Nat) :
    k ∈ m.map Prod.fst ↔ (seg_find m k).isSome = true := by
  induction m with
  | nil => simp [seg_find]
  | cons p rest ih =>
    obtain ⟨k0, a⟩ := p
    simp only [List.map_cons, List.mem_cons, seg_find]
    by_cases h : k0 = k
    · subst h; simp
    · rw [if_neg h, ← ih]
      constructor
      · rintro (e | e)
        · exact absurd e.symm h
        · exact e
      · intro e; exact Or.inr e

theorem mem_segment_ids (s : bitset_segmented) (k : Nat) :
    k ∈ segment_ids s ↔ (seg_find s.segments k).isSome = true :=
  mem_keys_iff s.segments k

/-- C19 (the segment directory grows monotonically): in every state, every segment id present
before a `set`, `unset`, `get` or `reserve_for_max_index` call is present after it; `unset`
leaves the set of ids as it is, also when it empties a segment, `get` leaves the state as it
is, and `set(i)` adds at most the id `i / 16384`. -/
theorem directory_grows (s : bitset_segmented) (i m k : Nat) :
    (k ∈ segment_ids s → k ∈ segment_ids (s.set i)) ∧
    (k ∈ segment_ids (s.set i) → k ∈ segment_ids s ∨ k = i / BITSET_SEGMENT_SIZE) ∧
    (k ∈ segment_ids (s.unset i).1 ↔ k ∈ segment_ids s) ∧
    (call s (Call.get i)).1 = s ∧
    (k ∈ segment_ids s → k ∈ segment_ids (s.reserve_for_max_index m)) := by
  simp only [mem_segment_ids]
  have hset : seg_find (s.set i).segments k =
      if i / BITSET_SEGMENT_SIZE = k then
        some (((seg_find s.segments (i / BITSET_SEGMENT_SIZE)).getD bitset_array.fresh).set
          (i % BITSET_SEGMENT_SIZE))
      else seg_find s.segments k := by
    rw [set_eq, seg_find_store]
  refine ⟨?_, ?_, ?_, rfl, ?_⟩
  · intro h
    rw [hset]
    by_cases hk : i / BITSET_SEGMENT_SIZE = k
    · rw [if_pos hk]; rfl
    · rw [if_neg hk]; exact h
  · intro h
    rw [hset] at h
    by_cases hk : i / BITSET_SEGMENT_SIZE = k
    · exact Or.inr hk.symm
    · rw [if_neg hk] at h; exact Or.inl h
  · cases hg : s.get i
    · rw [unset_of_not_get s i hg]
    · obtain ⟨a, hf, ht⟩ := get_true_find hg
      rw [unset_of_get s i hf ht]
      simp only [seg_find_store]
      by_cases hk : i / BITSET_SEGMENT_SIZE = k
      · rw [if_pos hk, ← hk, hf]; simp
      · rw [if_neg hk]
  · intro h
    rw [reserve_segments, seg_find_reserve_isSome, h]
    rfl

/-! ### Insertion followed by removal -/

/-- C20 (insert-then-remove restores the observable state): in every state reached by calls
with arguments below the largest value of the index type, and for every such index `i` that is
not set, `set(i)` followed by `unset(i)` returns true from `unset` and leaves `get(j)` for every
`j`, `empty()`, `head()` and `tail()` as they were before; every other segment of the directory
is as it was, and if the segment of `i` did not exist before, it is now present with
`count == 0`. -/
theorem insert_then_remove (ops : List Op) (s : bitset_segmented) (hb : below_max ops)
    (hs : run init ops = s) (i : Nat) (hi : i < SIZE_MAX) (hn : s.get i = false) :
    ((s.set i).unset i).2 = true ∧
    (∀ j, ((s.set i).unset i).1.get j = s.get j) ∧
    ((s.set i).unset i).1.empty = s.empty ∧
    ((s.set i).unset i).1.head = s.head ∧
    ((s.set i).unset i).1.tail = s.tail ∧
    (∀ k, k ≠ i / BITSET_SEGMENT_SIZE →
      seg_find ((s.set i).unset i).1.segments k = seg_find s.segments k) ∧
    (seg_find s.segments (i / BITSET_SEGMENT_SIZE) = none →
      ∃ a, seg_find ((s.set i).unset i).1.segments (i / BITSET_SEGMENT_SIZE) = some a ∧
        a.count = 0) := by
  subst hs
  obtain ⟨hd, hh, ht⟩ := all_inv_run ops hb
  generalize run init ops = s at hd hh ht hn
  have hM : SIZE_MAX = 18446744073709551615 := rfl
  have hd1 := dir_ok_set hd (i := i) (by omega)
  have hh1 := head_ok_set hd hh (i := i) (by omega)
  have ht1 := tail_ok_set hd ht hi
  have hd2 := dir_ok_unset hd1 i
  have hh2 := head_ok_unset hd1 hh1 i
  have ht2 := tail_ok_unset hd1 ht1 i
  have hg1 := get_set (dir_wf_of_ok hd) i
  have hg2 := get_unset (dir_wf_of_ok hd1) i
  have hgi : (s.set i).get i = true := by rw [hg1]; simp
  have hg : ∀ j, ((s.set i).unset i).1.get j = s.get j := by
    intro j
    rw [hg2, hg1]
    by_cases hji : j = i
    · subst hji; rw [hn]; simp
    · simp [hji]
  have eH := head_index_unique hd hd2 hh hh2 hg
  have eT := tail_index_unique ht ht2 hg
  have eE : ((s.set i).unset i).1.empty = s.empty := by
    unfold bitset_segmented.empty; rw [eH]
  have hseg : ∀ k, seg_find ((s.set i).unset i).1.segments k =
      if i / BITSET_SEGMENT_SIZE = k then
        some ((((seg_find s.segments (i / BITSET_SEGMENT_SIZE)).getD bitset_array.fresh).set
          (i % BITSET_SEGMENT_SIZE)).unset (i % BITSET_SEGMENT_SIZE))
      else seg_find s.segments k := by
    intro k
    obtain ⟨a, hf, hta⟩ := get_true_find hgi
    have hf2 := hf
    rw [set_eq, seg_find_store, if_pos rfl] at hf2
    injection hf2 with hf2
    rw [unset_of_get (s.set i) i hf hta]
    simp only [seg_find_store]
    by_cases hk : i / BITSET_SEGMENT_SIZE = k
    · rw [if_pos hk, if_pos hk, hf2]
    · rw [if_neg hk, if_neg hk, set_eq, seg_find_store, if_neg hk]
  refine ⟨by rw [unset_snd]; exact hgi, hg, eE, ?_, ?_, ?_, ?_⟩
  · unfold bitset_segmented.head; rw [eE, eH]
  · unfold bitset_segmented.tail; rw [eE, eT]
  · intro k hk
    rw [hseg, if_neg (fun e => hk e.symm)]
  · intro hnone
    refine ⟨_, by rw [hseg, if_pos rfl], ?_⟩
    have hfind := hseg (i / BITSET_SEGMENT_SIZE)
    rw [if_pos rfl] at hfind
    obtain ⟨_, hwf, hc, _, _⟩ := hd2.2 _ _ hfind
    rw [hc]
    apply bitset_array.popcount_of_all_false
    intro b
    rw [hnone, Option.getD_none]
    have hfw : bitset_array.fresh.wf := bitset_array.wf_fresh
    rw [bitset_array.test_unset (bitset_array.wf_set hfw) (mod_seg_lt i),
      bitset_array.test_set hfw (mod_seg_lt i), bitset_array.test_fresh]
    by_cases hb2 : b = i % BITSET_SEGMENT_SIZE
    · simp [hb2]
    · simp [hb2]

/-- Witness of C20 on the state after `set(10); set(50000)`: the index 3 becomes the head, the
index 70000 opens a new segment and becomes `tail - 1`; each removal puts
`head()` and `tail()` back. -/
theorem insert_then_remove_witness :
    below_max [Op.set 10, Op.set 50000] ∧ 3 < SIZE_MAX ∧
    (run init [Op.set 10, Op.set 50000]).get 3 = false ∧
    ((run init [Op.set 10, Op.set 50000]).set 3).head = 3 ∧
    ((run init [Op.set 10, Op.set 50000]).set 70000).tail = 70001 ∧
    (((run init [Op.set 10, Op.set 50000]).set 70000).unset 70000).1.tail = 50001 ∧
    ((((run init [Op.set 10, Op.set 50000]).set 3).unset 3).2 = true ∧
    (∀ j, (((run init [Op.set 10, Op.set 50000]).set 3).unset 3).1.get j =
      (run init [Op.set 10, Op.set 50000]).get j) ∧
    (((run init [Op.set 10, Op.set 50000]).set 3).unset 3).1.empty =
      (run init [Op.set 10, Op.set 50000]).empty ∧
    (((run init [Op.set 10, Op.set 50000]).set 3).unset 3).1.head =
      (run init [Op.set 10, Op.set 50000]).head ∧
    (((run init [Op.set 10, Op.set 50000]).set 3).unset 3).1.tail =
      (run init [Op.set 10, Op.set 50000]).tail ∧
    (∀ k, k ≠ 3 / BITSET_SEGMENT_SIZE →
      seg_find (((run init [Op.set 10, Op.set 50000]).set 3).unset 3).1.segments k =
        seg_find (run init [Op.set 10, Op.set 50000]).segments k) ∧
    (seg_find (run init [Op.set 10, Op.set 50000]).segments (3 / BITSET_SEGMENT_SIZE) = none →
      ∃ a, seg_find (((run init [Op.set 10, Op.set 50000]).set 3).unset 3).1.segments
          (3 / BITSET_SEGMENT_SIZE) = some a ∧ a.count = 0)) :=
  ⟨by unfold below_max; decide, by decide, by decide, by decide, by decide, by decide,
    insert_then_remove [Op.set 10, Op.set 50000] (run init [Op.set 10, Op.set 50000])
      (by unfold below_max; decide) rfl 3 (by decide) (by decide)⟩

end bsa
